import Mathlib

/-!
Verification development for the `get-shit-done` installer's platform-adapter
and content-transformation core.

JavaScript strings are modelled as `List Char`.  Each definition below is a
shallow embedding of the correspondingly named function of the repository
(`src/platforms/claude-code/index.js` containing the adapter base and the
frontmatter codec, `src/platforms/cursor/index.js` containing the Cursor
adapter, and `src/bin/install.js` containing the installer driver).

Modelling conventions, noted once here:
* JavaScript objects holding frontmatter fields are modelled as
  insertion-ordered association lists (`FM`).  Assigning an existing key
  updates it in place, assigning a fresh key appends it, matching object
  semantics for the identifier-like keys the codec produces.  (The
  ECMAScript oddity that integer-like keys iterate first is not modelled;
  no claim exercises it and it affects only iteration order, identically
  on both sides of the round-trip.)
* The regular expressions of the source are compiled by hand into
  executable scanners; every regex involved is anchored or literal
  (after `escapeRegex`), so `String.replace` calls become literal
  first-occurrence replacement.  The `$`-substitution ECMAScript performs
  inside replacement strings is not modelled; no code path of the claims
  puts a `$` pattern into a replacement string.
* The one statement in the transformation core that can throw — calling
  `.replace` on a frontmatter `name` field that parsed as a *list*
  containing the element `":"` — is modelled by returning `none`.
-/

set_option maxHeartbeats 1000000

namespace GSD

/-- Characters of a JavaScript string, as a list of `Char`. -/
abbrev Str := List Char

/-! ### JavaScript whitespace, `trim`, and character classes -/

/-- The characters `String.prototype.trim` removes and `\s` matches:
ASCII whitespace, line terminators, NBSP, BOM and Unicode space separators. -/
def wsChars : Str :=
  [' ', '\t', '\n', '\x0b', '\x0c', '\r', ' ', ' ',
   ' ', ' ', ' ', ' ', ' ', ' ', ' ',
   ' ', ' ', ' ', ' ', ' ', ' ', ' ',
   ' ', '　', '﻿']

/-- JavaScript whitespace test. -/
def isWS (c : Char) : Bool := wsChars.contains c

/-- Remove a trailing run of whitespace (structural helper for `trim`). -/
def trimRight : Str → Str
  | [] => []
  | c :: t =>
    match trimRight t with
    | [] => if isWS c then [] else [c]
    | r => c :: r

/-- `String.prototype.trim`: strip leading and trailing whitespace. -/
def trim (s : Str) : Str := trimRight (s.dropWhile isWS)

/-- The `\w` character class of JavaScript regexes (ASCII word characters). -/
def isWordChar (c : Char) : Bool :=
  (decide ('a' ≤ c) && decide (c ≤ 'z')) || (decide ('A' ≤ c) && decide (c ≤ 'Z')) ||
  (decide ('0' ≤ c) && decide (c ≤ '9')) || decide (c = '_')

/-- The `[\w-]` class used for frontmatter keys. -/
def isWordHyphen (c : Char) : Bool := isWordChar c || decide (c = '-')

/-- The `[a-z-]` class used for command names. -/
def isLowerHyphen (c : Char) : Bool :=
  (decide ('a' ≤ c) && decide (c ≤ 'z')) || decide (c = '-')

/-! ### Literal search, split and replace primitives -/

/-- Find the first occurrence of the literal pattern `pat`, returning the
text before and after it.  This is the search behaviour of a JavaScript
regex built from an `escapeRegex`-ed (hence literal) pattern. -/
def splitFirst (pat : Str) : Str → Option (Str × Str)
  | [] => if pat.isPrefixOf ([] : Str) then some ([], []) else none
  | c :: t =>
    if pat.isPrefixOf (c :: t) then some ([], (c :: t).drop pat.length)
    else (splitFirst pat t).map (fun p => (c :: p.1, p.2))

/-- `String.replace` with a literal pattern: replace the first occurrence,
or return the string unchanged when there is none. -/
def replaceFirst (pat repl s : Str) : Str :=
  match splitFirst pat s with
  | none => s
  | some (a, b) => a ++ repl ++ b

/-- Fuelled worker for `replaceAll`; the fuel only bounds the number of
replacements, which is at most the length of the subject string. -/
def replaceAllGo (pat repl : Str) : Nat → Str → Str
  | 0, s => s
  | fuel + 1, s =>
    match splitFirst pat s with
    | none => s
    | some (a, b) => a ++ repl ++ replaceAllGo pat repl fuel b

/-- `String.replace` with a global literal pattern: replace every
(non-overlapping, left-to-right) occurrence. -/
def replaceAll (pat repl s : Str) : Str :=
  if pat = [] then s else replaceAllGo pat repl (s.length + 1) s

/-- `String.prototype.split` with a single-character separator. -/
def splitOnChar (c : Char) : Str → List Str
  | [] => [[]]
  | a :: t =>
    match splitOnChar c t with
    | [] => [[a]]
    | h :: hs => if a = c then [] :: h :: hs else (a :: h) :: hs

/-- `Array.prototype.join` with a single-character separator. -/
def joinWith (c : Char) : List Str → Str
  | [] => []
  | [l] => l
  | l :: ls => l ++ c :: joinWith c ls

/-! ### Frontmatter codec (`src/platforms/claude-code/index.js`) -/

/-- A frontmatter value: a scalar string or an ordered list of strings. -/
inductive FMValue where
  | str (s : Str)
  | list (xs : List Str)
deriving DecidableEq, Repr, Inhabited

/-- A frontmatter mapping: insertion-ordered key/value pairs. -/
abbrev FM := List (Str × FMValue)

/-- Property access `frontmatter[k]`. -/
def lookupFM : FM → Str → Option FMValue
  | [], _ => none
  | (k', v) :: t, k => if k' = k then some v else lookupFM t k

/-- Property assignment `frontmatter[k] = v`: update in place if present,
else append (JavaScript object insertion order). -/
def setFM : FM → Str → FMValue → FM
  | [], k, v => [(k, v)]
  | (k', v') :: t, k, v =>
    if k' = k then (k', v) :: t else (k', v') :: setFM t k v

/-- `delete frontmatter[k]`. -/
def deleteFM : FM → Str → FM
  | [], _ => []
  | (k', v') :: t, k => if k' = k then t else (k', v') :: deleteFM t k

/-- `currentArray.push(e)` where `currentArray` aliases the list stored at
key `k` (the parser's invariant); on a non-list value it is the identity. -/
def appendItemFM : FM → Str → Str → FM
  | [], _, _ => []
  | (k', v') :: t, k, e =>
    if k' = k then
      match v' with
      | .list xs => (k', .list (xs ++ [e])) :: t
      | v => (k', v) :: t
    else (k', v') :: appendItemFM t k e

/-- The ECMAScript line terminators: the characters `.` never matches
and a multiline (`m`-flag) regex anchors at. -/
def isLineTerm (c : Char) : Bool :=
  decide (c = '\n') || decide (c = '\r') || decide (c = ' ') || decide (c = ' ')

/-- The key/value line regex `^(\w[\w-]*):(.*)$` of `parseFrontmatter`.
`:` is not in `[\w-]`, so the greedy key match needs no backtracking; the
dot of `(.*)` matches no line terminator and `$` (without the `m` flag)
anchors only at the end of the string, so the regex fails on a line whose
value part holds a carriage return, U+2028 or U+2029: such a line is
skipped. -/
def kvMatch (line : Str) : Option (Str × Str) :=
  match line with
  | [] => none
  | c :: t =>
    if isWordChar c then
      match t.dropWhile isWordHyphen with
      | ':' :: rest =>
        if rest.all (fun x => !isLineTerm x) then
          some (c :: t.takeWhile isWordHyphen, rest)
        else none
      | _ => none
    else none

/-- Parser state of the line loop in `parseFrontmatter`: the mapping built
so far, the current key, and whether that key currently holds the array
being filled (`currentArray !== null`). -/
structure YState where
  fm : FM
  cur : Option Str
  arr : Bool
deriving DecidableEq, Repr, Inhabited

/-- The key/value branch of the parse loop: on `key: value` store a trimmed
non-empty value and make `key` current; on `key:` just make it current. -/
def kvStep (st : YState) (line : Str) : YState :=
  match kvMatch line with
  | some (k, rest) =>
    let v := trim rest
    if v = [] then ⟨st.fm, some k, false⟩
    else ⟨setFM st.fm k (.str v), some k, false⟩
  | none => st

/-- One iteration of the `for (const line of lines)` loop of
`parseFrontmatter`: skip blank lines; `- item` lines (with a current key)
extend or start that key's list (`trimmed.slice(2).trim()`); otherwise try
the key/value regex. -/
def yamlStep (st : YState) (line : Str) : YState :=
  let t := trim line
  if t = [] then st
  else
    match st.cur with
    | some k =>
      if (['-', ' '] : Str).isPrefixOf t then
        let e := trim (t.drop 2)
        if st.arr then ⟨appendItemFM st.fm k e, st.cur, st.arr⟩
        else ⟨setFM st.fm k (.list [e]), st.cur, true⟩
      else kvStep st line
    | none => kvStep st line

/-- The header-parsing loop of `parseFrontmatter`, over the raw header's
lines. -/
def parseYamlLines (lines : List Str) : FM :=
  (lines.foldl yamlStep ⟨[], none, false⟩).fm

/-- The opening marker `---\n` demanded at the start of the document. -/
def fmOpen : Str := ['-', '-', '-', '\n']

/-- The closing marker `\n---\n`: the non-greedy group of
`^---\n([\s\S]*?)\n---\n([\s\S]*)$` ends at the first occurrence of this. -/
def fmClose : Str := ['\n', '-', '-', '-', '\n']

/-- The anchored match of `^---\n([\s\S]*?)\n---\n([\s\S]*)$`: the raw
header (first group) and the body (second group), or `none`. -/
def parseSplit (content : Str) : Option (Str × Str) :=
  if fmOpen.isPrefixOf content then splitFirst fmClose (content.drop fmOpen.length)
  else none

/-- `parseFrontmatter(content)`: returns `(frontmatter, body, raw)`; a
failed match yields `(null, content, null)`. -/
def parseFrontmatter (content : Str) : Option FM × Str × Option Str :=
  match parseSplit content with
  | none => (none, content, none)
  | some (raw, body) => (some (parseYamlLines (splitOnChar '\n' raw)), body, some raw)

/-- The lines `serializeFrontmatter` emits for one entry: `key: value` for
scalars, `key:` followed by `  - item` lines for lists. -/
def serializeEntry : Str × FMValue → List Str
  | (k, .str s) => [k ++ ':' :: ' ' :: s]
  | (k, .list xs) => (k ++ [':']) :: xs.map (fun x => ' ' :: ' ' :: '-' :: ' ' :: x)

/-- All lines `serializeFrontmatter` pushes, in iteration order. -/
def serializeFMLines : FM → List Str
  | [] => []
  | e :: t => serializeEntry e ++ serializeFMLines t

/-- `serializeFrontmatter(frontmatter)`: the emitted lines joined by `\n`. -/
def serializeFrontmatter (fm : FM) : Str := joinWith '\n' (serializeFMLines fm)

/-- `reconstructMarkdown(frontmatter, body)`:
`` `---\n${yaml}\n---\n${body}` ``. -/
def reconstructMarkdown (fm : FM) (body : Str) : Str :=
  fmOpen ++ serializeFrontmatter fm ++ fmClose ++ body

/-! ### Cursor adapter (`src/platforms/cursor/index.js`) -/

/-- The `commandSeparator` getter of the Cursor adapter: `/`. -/
def cursorSeparator : Str := ['/']

/-- Template-literal stringification `` `${v}` `` of a frontmatter value:
arrays are joined with commas. -/
def toStrFM : FMValue → Str
  | .str s => s
  | .list xs => joinWith ',' xs

/-- JavaScript truthiness of a frontmatter value: the empty string is falsy,
every array (even empty) is truthy. -/
def truthyFM : FMValue → Bool
  | .str s => !s.isEmpty
  | .list _ => true

/-- The mutation `transformFrontmatter` performs on the parsed mapping:
drop `allowed-tools`; rewrite `:` to `/` in a scalar `name`; merge a truthy
`argument-hint` into `description` and delete it.  Returns `none` for the
one input on which the JavaScript throws: a `name` that parsed as a list
containing the element `":"` (then `name.includes(':')` is true and
`name.replace` is not a function). -/
def cursorNameStep (fm1 : FM) : Option FM :=
  match lookupFM fm1 ("name".data) with
  | some (.str s) =>
    if !s.isEmpty && s.contains ':' then
      some (setFM fm1 ("name".data) (.str (s.map (fun c => if c = ':' then '/' else c))))
    else some fm1
  | some (.list xs) => if xs.contains [':'] then none else some fm1
  | none => some fm1

/-- The `argument-hint` merge: if a truthy `argument-hint` is present,
append it to `description` (or create `description`) and delete it. -/
def cursorHintStep (fm2 : FM) : FM :=
  match lookupFM fm2 ("argument-hint".data) with
  | some hv =>
    if truthyFM hv then
      let hint := toStrFM hv
      let descNew :=
        match lookupFM fm2 ("description".data) with
        | some dv =>
          if truthyFM dv then toStrFM dv ++ (" Arguments: ".data) ++ hint
          else ("Arguments: ".data) ++ hint
        | none => ("Arguments: ".data) ++ hint
      deleteFM (setFM fm2 ("description".data) (.str descNew)) ("argument-hint".data)
    else fm2
  | none => fm2

def cursorFmMutate (fm : FM) : Option FM :=
  (cursorNameStep (deleteFM fm ("allowed-tools".data))).map cursorHintStep

/-- `CursorAdapter.transformFrontmatter(content)`: parse, mutate,
reconstruct; content without a parsable header is returned unchanged. -/
def cursorTransformFrontmatter (content : Str) : Option Str :=
  match parseSplit content with
  | none => some content
  | some (raw, body) =>
    (cursorFmMutate (parseYamlLines (splitOnChar '\n' raw))).map
      (fun fm => reconstructMarkdown fm body)

/-- Fuelled worker for `transformCommandReferences`:
`content.replace(/\/gsd:([a-z-]+)/g, `/gsd${sep}$1`)`.  The fuel is the
length of the remaining text, which strictly bounds the scan. -/
def tcrGo (sep : Str) : Nat → Str → Str
  | 0, s => s
  | _ + 1, [] => []
  | fuel + 1, c :: t =>
    if (['/', 'g', 's', 'd', ':'] : Str).isPrefixOf (c :: t) then
      let rest := t.drop 4
      let name := rest.takeWhile isLowerHyphen
      if name.isEmpty then c :: tcrGo sep fuel t
      else (['/', 'g', 's', 'd'] : Str) ++ sep ++ name ++ tcrGo sep fuel (rest.drop name.length)
    else c :: tcrGo sep fuel t

/-- Does `/\\/gsd:([a-z-]+)/` match anywhere in the string?  (True exactly
when `transformCommandReferences` performs at least one replacement.) -/
def hasCmdRef : Str → Bool
  | [] => false
  | c :: t =>
    ((['/', 'g', 's', 'd', ':'] : Str).isPrefixOf (c :: t) &&
      !((t.drop 4).takeWhile isLowerHyphen).isEmpty) ||
    hasCmdRef t

/-- `CursorAdapter.transformCommandReferences(content)` with separator
`sep` (the Cursor adapter passes `cursorSeparator`). -/
def transformCommandReferences (sep : Str) (content : Str) : Str :=
  tcrGo sep content.length content

/-- Split at every line terminator, for evaluating an `m`-anchored regex. -/
def mlSplit : Str → List Str
  | [] => [[]]
  | a :: t =>
    match mlSplit t with
    | [] => [[a]]
    | h :: hs => if isLineTerm a then [] :: h :: hs else (a :: h) :: hs

/-- A full-line match of `^(@[^\s]+)$`: `@` followed by one or more
non-whitespace characters and nothing else. -/
def regexRefLine (l : Str) : Bool :=
  match l with
  | '@' :: rest => !rest.isEmpty && rest.all (fun c => !isWS c)
  | _ => false

/-- The collection pass of `transformFileReferences`: does
`/^(@[^\s]+)$/gm` match anywhere in the content? -/
def hasFileRef (content : Str) : Bool := (mlSplit content).any regexRefLine

/-- The per-line test of the grouping loop:
`line.startsWith('@') && !line.includes(' ') && line.length > 1`
(applied to the trimmed line). -/
def blockRefLine (t : Str) : Bool :=
  match t with
  | '@' :: rest => !rest.isEmpty && !t.contains ' '
  | _ => false

/-- The instructional block emitted for one run of reference lines. -/
def readInstructions (blockRefs : List Str) : Str :=
  ("**Read these files before proceeding:**\n".data) ++
    joinWith '\n' (blockRefs.map (fun r => '-' :: ' ' :: r.drop 1))

/-- The grouping-and-replacement loop of `transformFileReferences`: walk the
lines, collect each maximal run of reference lines, and replace the first
occurrence of the run's text in the accumulated result by the instructional
block (the block pattern is `escapeRegex`-ed, hence a literal search).
Fuel is the number of lines left. -/
def processBlocks : Nat → Str → List Str → Str
  | 0, result, _ => result
  | _ + 1, result, [] => result
  | fuel + 1, result, l :: rest =>
    if blockRefLine (trim l) then
      let blockRefs := ((l :: rest).takeWhile (fun x => blockRefLine (trim x))).map trim
      let remaining := (l :: rest).dropWhile (fun x => blockRefLine (trim x))
      processBlocks fuel
        (replaceFirst (joinWith '\n' blockRefs) (readInstructions blockRefs) result)
        remaining
    else processBlocks fuel result rest

/-- `CursorAdapter.transformFileReferences(content, pathPrefix)`: if no line
matches `^(@[^\s]+)$`, return the content unchanged; otherwise run the
grouping loop over `content.split('\n')`.  (The JavaScript parameter
`pathPrefix` is unused by the implementation.) -/
def cursorTransformFileReferences (content : Str) : Str :=
  if hasFileRef content then
    processBlocks (splitOnChar '\n' content).length content (splitOnChar '\n' content)
  else content

/-- The canonical source path prefix `~/.claude/` replaced as the very first
step of `transformContent`. -/
def claudePathPat : Str := "~/.claude/".data

/-- `CursorAdapter.transformContent(content, pathPrefix)`: prefix
substitution, then frontmatter transform, then file-reference transform,
then command-reference transform. -/
def cursorTransformContent (content pathPfx : Str) : Option Str :=
  let r1 := replaceAll claudePathPat pathPfx content
  (cursorTransformFrontmatter r1).map
    (fun r2 => transformCommandReferences cursorSeparator (cursorTransformFileReferences r2))

/-! ### Installer driver (`src/bin/install.js`)

The driver's observable behaviour is modelled as the list of effects it
performs, in order.  Filesystem contents are a parameter (`FSTree` values
for the two template directories), so the copy loop is a pure recursion
emitting read/transform/write effects. -/

/-- One observable effect of the installer process. -/
inductive Eff where
  | banner
  | errLine (msg : Str)
  | logLine (msg : Str)
  | exitCode (n : Nat)
  | mkdirRec (path : Str)
  | readSrcFile (path : Str)
  | transformDoc (path : Str)
  | writeFile (path : Str)
  | copyFile (srcPath destPath : Str)
  | promptUser
deriving DecidableEq, Repr, Inhabited

/-- Does the effect touch the filesystem or transform content?  (Used to
state that validation failures happen before any such effect.) -/
def effTouchesWork : Eff → Bool
  | .mkdirRec _ => true
  | .readSrcFile _ => true
  | .transformDoc _ => true
  | .writeFile _ => true
  | .copyFile _ _ => true
  | _ => false

/-- A directory entry of the template tree being installed. -/
inductive FSTree where
  | file (name : Str) (content : Str)
  | dir (name : Str) (entries : List FSTree)

/-- The platform registry `PLATFORMS` keys: `claude` and `cursor`. -/
def platformIds : List Str := ["claude".data, "cursor".data]

/-- `PLATFORMS[p]` truthiness: is `p` a registered platform id? -/
def isKnownPlatform (p : Str) : Bool := platformIds.contains p

/-- ASCII `String.prototype.toLowerCase`. -/
def lowerStr (s : Str) : Str := s.map Char.toLower

/-- `parseAiArg()`: the value of `--ai` (next argument or `--ai=value`),
lowercased, defaulting to `claude`; `none` models the
`--ai requires a platform name` error exit. -/
def parseAiArg (args : List Str) : Option Str :=
  match args.findIdx? (fun a => a = "--ai".data) with
  | some i =>
    match args.get? (i + 1) with
    | none => none
    | some next =>
      if next.isEmpty then none
      else if next.head? = some '-' then none
      else some (lowerStr next)
  | none =>
    match args.find? (fun a => ("--ai=".data).isPrefixOf a) with
    | some a => some (lowerStr (((a.dropWhile (fun c => c ≠ '=')).drop 1).takeWhile (fun c => c ≠ '=')))
    | none => some ("claude".data)

/-- `parseConfigDirArg()`: the value of `--config-dir`/`-c`, `none` for the
`--config-dir requires a path argument` error exit, `some none` when the
option is absent. -/
def parseConfigDirArg (args : List Str) : Option (Option Str) :=
  match args.findIdx? (fun a => a = "--config-dir".data ∨ a = "-c".data) with
  | some i =>
    match args.get? (i + 1) with
    | none => none
    | some next =>
      if next.isEmpty then none
      else if next.head? = some '-' then none
      else some (some next)
  | none =>
    match args.find? (fun a => ("--config-dir=".data).isPrefixOf a ∨ ("-c=".data).isPrefixOf a) with
    | some a => some (some (((a.dropWhile (fun c => c ≠ '=')).drop 1).takeWhile (fun c => c ≠ '=')))
    | none => some none

/-- `expandTilde(filePath)`: `~/rest` resolves under the home directory. -/
def expandTilde (home : Str) (p : Str) : Str :=
  if ("~/".data).isPrefixOf p then home ++ '/' :: p.drop 2 else p

/-- The `dirName` getter of the selected adapter. -/
def dirNameOf (p : Str) : Str :=
  if p = "cursor".data then ".cursor".data else ".claude".data

/-- `AdapterBase.getTargetDir(cwd, homeDir)`. -/
def getTargetDir (p : Str) (isGlobal : Bool) (configDir : Option Str)
    (cwd home : Str) : Str :=
  match configDir with
  | some d => d
  | none => (if isGlobal then home else cwd) ++ '/' :: dirNameOf p

/-- `AdapterBase.getPathPrefix()`. -/
def getPathPrefix (p : Str) (isGlobal : Bool) (configDir : Option Str) : Str :=
  match configDir with
  | some d => d ++ ['/']
  | none => (if isGlobal then "~/".data else "./".data) ++ dirNameOf p ++ ['/']

/-- Does the file name end in `.md`? -/
def endsWithMd (n : Str) : Bool := (".md".data).isSuffixOf n

mutual
/-- `copyWithTransformation(srcDir, destDir, adapter, pathPrefix)` on one
entry: directories recurse, `.md` files are read, transformed and written,
anything else is copied byte-for-byte. -/
def copyEntryEffs (srcDir destDir : Str) : FSTree → List Eff
  | .file n _ =>
    if endsWithMd n then
      [.readSrcFile (srcDir ++ '/' :: n), .transformDoc (srcDir ++ '/' :: n),
       .writeFile (destDir ++ '/' :: n)]
    else [.copyFile (srcDir ++ '/' :: n) (destDir ++ '/' :: n)]
  | .dir n es =>
    .mkdirRec (destDir ++ '/' :: n) :: copyEntriesEffs (srcDir ++ '/' :: n) (destDir ++ '/' :: n) es

/-- The entry loop of `copyWithTransformation`. -/
def copyEntriesEffs (srcDir destDir : Str) : List FSTree → List Eff
  | [] => []
  | e :: es => copyEntryEffs srcDir destDir e ++ copyEntriesEffs srcDir destDir es
end

/-- `copyWithTransformation` itself: create the destination directory, then
process the entries. -/
def copyWithTransformation (srcDir destDir : Str) (entries : List FSTree) : List Eff :=
  .mkdirRec destDir :: copyEntriesEffs srcDir destDir entries

/-- `install(isGlobal)`: resolve the target directory and path prefix, then
copy `commands/gsd` and `get-shit-done` with transformation, then write the
adapter's additional files (given as resolved destination/content pairs). -/
def installEffs (p : Str) (isGlobal : Bool) (configDir : Option Str)
    (cwd home src : Str) (gsdEntries skillEntries : List FSTree)
    (additional : List (Str × Str)) : List Eff :=
  let targetDir := getTargetDir p isGlobal configDir cwd home
  let locationLabel :=
    if isGlobal then replaceFirst home ['~'] targetDir
    else replaceFirst cwd ['.'] targetDir
  [.logLine ("Platform: ".data ++ (if p = "cursor".data then "Cursor".data else "Claude Code".data)),
   .logLine ("Installing to ".data ++ locationLabel),
   .mkdirRec (targetDir ++ "/commands".data)] ++
  copyWithTransformation (src ++ "/commands/gsd".data)
    (targetDir ++ "/commands/gsd".data) gsdEntries ++
  [.logLine "Installed commands/gsd".data] ++
  copyWithTransformation (src ++ "/get-shit-done".data)
    (targetDir ++ "/get-shit-done".data) skillEntries ++
  [.logLine "Installed get-shit-done".data] ++
  (additional.map (fun f => Eff.writeFile (targetDir ++ '/' :: f.1))) ++
  [.logLine "Done! Run /gsd:help to get started.".data]

/-- The help text printed for `--help` (abridged to its first line; its
contents are irrelevant to the control flow). -/
def helpText : Str := "Usage: npx get-shit-done-cc [options]".data

/-- The `main` dispatch of `install.js`, as the ordered list of effects the
process performs: argument parsing (whose failures print and exit before
the banner), the banner, platform validation, help, the scope-conflict
checks, and finally installation or the interactive prompt.  `envConfigDir`
models `process.env.CLAUDE_CONFIG_DIR`; `answer` models the interactive
reply read by `promptLocation`. -/
def mainTrace (args : List Str) (envConfigDir : Option Str) (cwd home src : Str)
    (gsdEntries skillEntries : List FSTree) (additional : List (Str × Str))
    (answer : Str) : List Eff :=
  let hasGlobal := args.contains ("--global".data) || args.contains ("-g".data)
  let hasLocal := args.contains ("--local".data) || args.contains ("-l".data)
  let hasHelp := args.contains ("--help".data) || args.contains ("-h".data)
  match parseAiArg args with
  | none =>
    [.errLine "--ai requires a platform name (claude | cursor)".data, .exitCode 1]
  | some selectedPlatform =>
    match parseConfigDirArg args with
    | none => [.errLine "--config-dir requires a path argument".data, .exitCode 1]
    | some explicitConfigDir =>
      Eff.banner ::
      (if !isKnownPlatform selectedPlatform then
        [.errLine ("Unknown platform: ".data ++ selectedPlatform),
         .errLine "Available: claude, cursor".data, .exitCode 1]
      else if hasHelp then [.logLine helpText, .exitCode 0]
      else
        let configDir :=
          match explicitConfigDir with
          | some d => some (expandTilde home d)
          | none => envConfigDir.map (expandTilde home)
        if hasGlobal && hasLocal then
          [.errLine "Cannot specify both --global and --local".data, .exitCode 1]
        else if explicitConfigDir.isSome && hasLocal then
          [.errLine "Cannot use --config-dir with --local".data, .exitCode 1]
        else if hasGlobal then
          installEffs selectedPlatform true configDir cwd home src
            gsdEntries skillEntries additional
        else if hasLocal then
          installEffs selectedPlatform false configDir cwd home src
            gsdEntries skillEntries additional
        else
          .promptUser ::
          installEffs selectedPlatform (trim answer ≠ ['2']) configDir cwd home src
            gsdEntries skillEntries additional)

/-! ### Well-formedness predicates and other derived definitions -/

/-- A string as stored by the parser: non-empty, no surrounding whitespace
(it was produced by `trim`) and drawn from a single line (no `\n`). -/
def WFstr (s : Str) : Prop :=
  s ≠ [] ∧ (∀ c, s.head? = some c → isWS c = false) ∧
    (∀ c, s.getLast? = some c → isWS c = false) ∧ '\n' ∉ s

/-- A key as matched by `^(\w[\w-]*):`. -/
def validKey (k : Str) : Prop :=
  ∃ c t, k = c :: t ∧ isWordChar c = true ∧ ∀ x ∈ t, isWordHyphen x = true

/-- Well-formed frontmatter value. -/
def WFval : FMValue → Prop
  | .str s => WFstr s
  | .list xs => xs ≠ [] ∧ ∀ x ∈ xs, WFstr x

/-- The keys of a mapping, in order. -/
def keysFM (fm : FM) : List Str := fm.map Prod.fst

/-- Well-formed frontmatter mapping: distinct valid keys, well-formed
values. -/
def WFfm (fm : FM) : Prop :=
  (keysFM fm).Nodup ∧ ∀ e ∈ fm, validKey e.1 ∧ WFval e.2

/-- The invariant the parse loop maintains. -/
def InvY (st : YState) : Prop :=
  WFfm st.fm ∧ ∀ k, st.cur = some k → validKey k

/-- A line that can sit inside the raw header without confusing the
closing-marker search: it holds no newline and is not itself `---`. -/
def goodLine (l : Str) : Prop := '\n' ∉ l ∧ l ≠ ['-', '-', '-']

/-- The serialized form of one list item, `  - x`. -/
def itemLine (x : Str) : Str := ' ' :: ' ' :: '-' :: ' ' :: x

/-- The state `transformFrontmatter` leaves a mapping in: `allowed-tools`
and `argument-hint` gone, no colon left for the `name` rewrite to touch. -/
def MutFixed (fm : FM) : Prop :=
  ("allowed-tools".data : Str) ∉ keysFM fm ∧
  ("argument-hint".data : Str) ∉ keysFM fm ∧
  (∀ s, lookupFM fm ("name".data) = some (FMValue.str s) → (':' : Char) ∉ s) ∧
  (∀ xs, lookupFM fm ("name".data) = some (FMValue.list xs) → ([':'] : Str) ∉ xs)

/-- The value holds no line terminator in a scalar; lists are
unconstrained (their items reach the re-parser through the item branch,
which uses no regex). -/
def ScalarLT : FMValue → Prop
  | .str s => ∀ x ∈ s, isLineTerm x = false
  | .list _ => True

/-- No line terminator anywhere in the value, items included. -/
def LTfreeVal : FMValue → Prop
  | .str s => ∀ x ∈ s, isLineTerm x = false
  | .list xs => ∀ y ∈ xs, ∀ x ∈ y, isLineTerm x = false

/-- No line terminator anywhere in any value of the mapping. -/
def LTfreeFM (fm : FM) : Prop := ∀ e ∈ fm, LTfreeVal e.2

/-! ### Basic facts about the string primitives -/

theorem contains_iff_mem (l : Str) (c : Char) : l.contains c = true ↔ c ∈ l := by
  simp [List.contains]

theorem wsChars_spec : ∀ c ∈ wsChars,
    isWordChar c = false ∧ isWordHyphen c = false ∧ isLowerHyphen c = false ∧
    c ≠ '-' ∧ c ≠ '@' ∧ c ≠ ':' ∧ c ≠ '/' ∧ c ≠ ',' := by
  decide

theorem isWS_iff (c : Char) : isWS c = true ↔ c ∈ wsChars := by
  simp [isWS, List.contains]

theorem not_ws_of_wordChar {c : Char} (h : isWordChar c = true) : isWS c = false := by
  cases hws : isWS c
  · rfl
  · exact absurd h (by simp [(wsChars_spec c ((isWS_iff c).1 hws)).1])

theorem not_ws_of_wordHyphen {c : Char} (h : isWordHyphen c = true) : isWS c = false := by
  cases hws : isWS c
  · rfl
  · exact absurd h (by simp [(wsChars_spec c ((isWS_iff c).1 hws)).2.1])

theorem not_ws_hyphen : isWS '-' = false := by decide

theorem not_ws_colon : isWS ':' = false := by decide

theorem not_ws_slash : isWS '/' = false := by decide

theorem not_ws_at : isWS '@' = false := by decide

theorem not_ws_comma : isWS ',' = false := by decide

/-- `isPrefixOf` agrees with an explicit append decomposition. -/
theorem isPrefixOf_iff_append (p s : Str) :
    p.isPrefixOf s = true ↔ ∃ r, s = p ++ r := by
  rw [List.isPrefixOf_iff_prefix]
  constructor
  · rintro ⟨r, rfl⟩; exact ⟨r, rfl⟩
  · rintro ⟨r, rfl⟩; exact ⟨r, rfl⟩

theorem isPrefixOf_append (p r : Str) : p.isPrefixOf (p ++ r) = true :=
  (isPrefixOf_iff_append p (p ++ r)).2 ⟨r, rfl⟩

theorem isPrefixOf_cons_false {c : Char} {p t : Str} {d : Char}
    (h : d ≠ c) : (c :: p).isPrefixOf (d :: t) = false := by
  cases hb : (c :: p).isPrefixOf (d :: t)
  · rfl
  · obtain ⟨r, hr⟩ := (isPrefixOf_iff_append _ _).1 hb
    simp at hr
    exact absurd hr.1 h

/-! #### `trimRight` and `trim` -/

theorem trimRight_head? {s : Str} {c : Char} (h : (trimRight s).head? = some c) :
    s.head? = some c := by
  induction s with
  | nil => simp [trimRight] at h
  | cons a t ih =>
    simp only [trimRight] at h
    cases htr : trimRight t with
    | nil =>
      rw [htr] at h
      by_cases hws : isWS a
      · simp [hws] at h
      · simp [hws] at h
        simp [h]
    | cons d ds =>
      rw [htr] at h
      simp at h ⊢
      exact h

theorem trimRight_getLast?_not_ws {s : Str} {c : Char}
    (h : (trimRight s).getLast? = some c) : isWS c = false := by
  induction s with
  | nil => simp [trimRight] at h
  | cons a t ih =>
    simp only [trimRight] at h
    cases htr : trimRight t with
    | nil =>
      rw [htr] at h
      by_cases hws : isWS a
      · simp [hws] at h
      · simp [hws] at h
        rw [← h]
        simpa using hws
    | cons d ds =>
      rw [htr] at h
      rw [List.getLast?_cons_cons] at h
      exact ih (htr ▸ h)

theorem trimRight_eq_self {s : Str}
    (h : ∀ c, s.getLast? = some c → isWS c = false) : trimRight s = s := by
  induction s with
  | nil => rfl
  | cons a t ih =>
    simp only [trimRight]
    cases t with
    | nil =>
      have := h a rfl
      simp [trimRight, this]
    | cons b u =>
      have ht : trimRight (b :: u) = b :: u := by
        apply ih
        intro c hc
        exact h c (by rwa [List.getLast?_cons_cons])
      rw [ht]

theorem trimRight_mem {s : Str} {c : Char} (h : c ∈ trimRight s) : c ∈ s := by
  induction s with
  | nil => simp [trimRight] at h
  | cons a t ih =>
    simp only [trimRight] at h
    cases htr : trimRight t with
    | nil =>
      rw [htr] at h
      by_cases hws : isWS a
      · simp [hws] at h
      · simp [hws] at h; simp [h]
    | cons d ds =>
      rw [htr] at h
      rcases List.mem_cons.1 h with h | h
      · simp [h]
      · exact List.mem_cons_of_mem _ (ih (by rw [htr]; exact h))

theorem dropWhile_head?_not {p : Char → Bool} {s : Str} {c : Char}
    (h : (s.dropWhile p).head? = some c) : p c = false := by
  induction s with
  | nil => simp [List.dropWhile] at h
  | cons a t ih =>
    by_cases hp : p a
    · rw [List.dropWhile_cons_of_pos hp] at h; exact ih h
    · rw [List.dropWhile_cons_of_neg hp] at h
      simp at h
      rw [← h]
      simpa using hp

theorem dropWhile_cons_neg {p : Char → Bool} {a : Char} {t : Str} (h : p a = false) :
    (a :: t).dropWhile p = a :: t :=
  List.dropWhile_cons_of_neg (by simp [h])

theorem trim_head?_not_ws {s : Str} {c : Char} (h : (trim s).head? = some c) :
    isWS c = false :=
  dropWhile_head?_not (trimRight_head? h)

theorem trim_getLast?_not_ws {s : Str} {c : Char} (h : (trim s).getLast? = some c) :
    isWS c = false :=
  trimRight_getLast?_not_ws h

theorem trim_mem {s : Str} {c : Char} (h : c ∈ trim s) : c ∈ s := by
  have h1 := trimRight_mem h
  exact List.Sublist.mem h1 (List.dropWhile_sublist isWS)

theorem trim_eq_self {s : Str}
    (hh : ∀ c, s.head? = some c → isWS c = false)
    (hl : ∀ c, s.getLast? = some c → isWS c = false) : trim s = s := by
  unfold trim
  have hd : s.dropWhile isWS = s := by
    cases s with
    | nil => rfl
    | cons a t => exact dropWhile_cons_neg (hh a rfl)
  rw [hd]
  exact trimRight_eq_self hl

theorem trim_trim (s : Str) : trim (trim s) = trim s := by
  cases hts : trim s with
  | nil => rfl
  | cons a t =>
    apply trim_eq_self
    · intro c hc; exact @trim_head?_not_ws s _ (hts ▸ hc)
    · intro c hc; exact @trim_getLast?_not_ws s _ (hts ▸ hc)

theorem trim_nil : trim [] = [] := rfl

/-! #### `splitFirst`: soundness, completeness, earliest match -/

theorem splitFirst_sound {pat s a b : Str}
    (h : splitFirst pat s = some (a, b)) : s = a ++ pat ++ b := by
  induction s generalizing a b with
  | nil =>
    simp only [splitFirst] at h
    by_cases hp : pat.isPrefixOf ([] : Str) = true
    · obtain ⟨r, hr⟩ := (isPrefixOf_iff_append _ _).1 hp
      rcases List.append_eq_nil.1 hr.symm with ⟨h1, h2⟩
      rw [if_pos hp] at h
      simp only [Option.some.injEq, Prod.mk.injEq] at h
      rw [← h.1, ← h.2]
      simp [h1]
    · rw [if_neg hp] at h
      cases h
  | cons c t ih =>
    simp only [splitFirst] at h
    by_cases hp : pat.isPrefixOf (c :: t) = true
    · obtain ⟨r, hr⟩ := (isPrefixOf_iff_append _ _).1 hp
      rw [if_pos hp] at h
      simp only [Option.some.injEq, Prod.mk.injEq] at h
      rw [← h.1, ← h.2, hr]
      simp [List.drop_left]
    · rw [if_neg hp, Option.map_eq_some'] at h
      obtain ⟨⟨p, q⟩, hsf, hpq⟩ := h
      simp only [Prod.mk.injEq] at hpq
      rw [← hpq.1, ← hpq.2]
      have := ih hsf
      rw [this]
      simp

theorem splitFirst_none {pat s : Str}
    (h : ∀ a b, s ≠ a ++ pat ++ b) : splitFirst pat s = none := by
  induction s with
  | nil =>
    simp only [splitFirst]
    by_cases hp : pat.isPrefixOf ([] : Str) = true
    · obtain ⟨r, hr⟩ := (isPrefixOf_iff_append _ _).1 hp
      rcases List.append_eq_nil.1 hr.symm with ⟨h1, h2⟩
      exact absurd (by simp [h1]) (h [] [])
    · rw [if_neg hp]
  | cons c t ih =>
    simp only [splitFirst]
    by_cases hp : pat.isPrefixOf (c :: t) = true
    · obtain ⟨r, hr⟩ := (isPrefixOf_iff_append _ _).1 hp
      exact absurd (by simpa using hr) (h [] r)
    · rw [if_neg hp]
      rw [ih (fun a b hab => h (c :: a) b (by simp [hab]))]
      rfl

theorem splitFirst_self {pat : Str} (b : Str) (hpat : pat ≠ []) :
    splitFirst pat (pat ++ b) = some ([], b) := by
  obtain ⟨p0, pt, rfl⟩ : ∃ p0 pt, pat = p0 :: pt := by
    cases pat with
    | nil => exact absurd rfl hpat
    | cons x y => exact ⟨x, y, rfl⟩
  rw [List.cons_append]
  simp only [splitFirst]
  rw [← List.cons_append, if_pos (isPrefixOf_append _ b), List.drop_left]

theorem splitFirst_earliest {pat b : Str} (hpat : pat ≠ []) :
    ∀ a : Str,
      (∀ a₁ a₂, a = a₁ ++ a₂ → a₂ ≠ [] → pat.isPrefixOf (a₂ ++ pat ++ b) = false) →
      splitFirst pat (a ++ pat ++ b) = some (a, b) := by
  intro a
  induction a with
  | nil =>
    intro _
    rw [List.nil_append]
    exact splitFirst_self b hpat
  | cons c a' ih =>
    intro hno
    have hp' : pat.isPrefixOf (c :: (a' ++ pat ++ b)) = false := by
      have h0 := hno [] (c :: a') rfl (by simp)
      simpa using h0
    rw [show (c :: a') ++ pat ++ b = c :: (a' ++ pat ++ b) by simp]
    simp only [splitFirst]
    rw [if_neg (by rw [hp']; simp)]
    rw [ih (fun a₁ a₂ hsplit hne => hno (c :: a₁) a₂ (by simp [hsplit]) hne)]
    rfl

/-! #### `splitOnChar` and `joinWith` -/

theorem splitOnChar_ne_nil (c : Char) (s : Str) : splitOnChar c s ≠ [] := by
  cases s with
  | nil => simp [splitOnChar]
  | cons a t =>
    simp only [splitOnChar]
    cases splitOnChar c t with
    | nil => simp
    | cons h hs =>
      by_cases hac : a = c <;> simp [hac]

theorem splitOnChar_no_sep (c : Char) (s : Str) : ∀ l ∈ splitOnChar c s, c ∉ l := by
  induction s with
  | nil =>
    intro l hl
    simp [splitOnChar] at hl
    simp [hl]
  | cons a t ih =>
    intro l hl
    simp only [splitOnChar] at hl
    cases hsp : splitOnChar c t with
    | nil => exact absurd hsp (splitOnChar_ne_nil c t)
    | cons h hs =>
      rw [hsp] at hl
      by_cases hac : a = c
      · simp [hac] at hl
        rcases hl with hl | hl | hl
        · simp [hl]
        · exact ih l (by rw [hsp]; simp [hl])
        · exact ih l (by rw [hsp]; exact List.mem_cons_of_mem _ hl)
      · simp [hac] at hl
        rcases hl with hl | hl
        · rw [hl]
          intro hmem
          rcases List.mem_cons.1 hmem with hx | hx
          · exact hac hx.symm
          · exact ih h (by rw [hsp]; simp) hx
        · exact ih l (by rw [hsp]; exact List.mem_cons_of_mem _ hl)

theorem splitOnChar_of_not_mem {c : Char} {s : Str} (h : c ∉ s) :
    splitOnChar c s = [s] := by
  induction s with
  | nil => rfl
  | cons a t ih =>
    have hac : a ≠ c := fun hx => h (by simp [hx])
    have hct : c ∉ t := fun hx => h (List.mem_cons_of_mem _ hx)
    simp only [splitOnChar]
    rw [ih hct]
    simp [fun hx => hac hx]

theorem splitOnChar_append {c : Char} {l rest : Str} (h : c ∉ l) :
    splitOnChar c (l ++ c :: rest) = l :: splitOnChar c rest := by
  induction l with
  | nil =>
    simp only [List.nil_append, splitOnChar]
    cases hsp : splitOnChar c rest with
    | nil => exact absurd hsp (splitOnChar_ne_nil c rest)
    | cons hh hs => simp
  | cons a l' ih =>
    have hac : a ≠ c := fun hx => h (by simp [hx])
    have hcl : c ∉ l' := fun hx => h (List.mem_cons_of_mem _ hx)
    have step : splitOnChar c (a :: (l' ++ c :: rest)) =
        match splitOnChar c (l' ++ c :: rest) with
        | [] => [[a]]
        | hh :: hs => if a = c then [] :: hh :: hs else (a :: hh) :: hs := rfl
    rw [List.cons_append, step, ih hcl]
    simp [hac]

theorem joinWith_cons₂ (c : Char) (l : Str) (m : Str) (ls : List Str) :
    joinWith c (l :: m :: ls) = l ++ c :: joinWith c (m :: ls) := rfl

theorem splitOnChar_joinWith {c : Char} :
    ∀ L : List Str, L ≠ [] → (∀ l ∈ L, c ∉ l) →
      splitOnChar c (joinWith c L) = L := by
  intro L
  induction L with
  | nil => intro h; exact absurd rfl h
  | cons l ls ih =>
    intro _ hfree
    cases ls with
    | nil =>
      show splitOnChar c (joinWith c [l]) = [l]
      rw [show joinWith c [l] = l from rfl]
      exact splitOnChar_of_not_mem (hfree l (by simp))
    | cons m ls' =>
      rw [joinWith_cons₂]
      rw [splitOnChar_append (hfree l (by simp))]
      rw [ih (by simp) (fun x hx => hfree x (List.mem_cons_of_mem _ hx))]

theorem dropWhile_getLast? {s : Str} {c : Char}
    (hc : s.getLast? = some c) (hws : isWS c = false) :
    (s.dropWhile isWS).getLast? = some c := by
  induction s with
  | nil => simp at hc
  | cons a t ih =>
    by_cases ha : isWS a
    · rw [List.dropWhile_cons_of_pos (by simpa using ha)]
      cases t with
      | nil =>
        simp at hc
        rw [hc] at ha
        rw [hws] at ha
        exact absurd ha (by simp)
      | cons b u => exact ih (by rwa [List.getLast?_cons_cons] at hc)
    · rw [dropWhile_cons_neg (by simpa using ha)]
      exact hc

theorem trim_ne_nil_of_getLast {s : Str} {c : Char}
    (hc : s.getLast? = some c) (hws : isWS c = false) : trim s ≠ [] := by
  unfold trim
  have hd := dropWhile_getLast? hc hws
  have hself : trimRight (s.dropWhile isWS) = s.dropWhile isWS := by
    apply trimRight_eq_self
    intro c' hc'
    rw [hd] at hc'
    cases hc'
    exact hws
  rw [hself]
  intro hnil
  rw [hnil] at hd
  simp at hd

/-! ### Well-formed frontmatter: the invariant `parseFrontmatter` maintains -/

theorem validKey_not_ws {k : Str} (h : validKey k) :
    k ≠ [] ∧ (∀ c, k.head? = some c → isWS c = false) ∧
      (∀ c, k.getLast? = some c → isWS c = false) ∧ '\n' ∉ k := by
  obtain ⟨c, t, rfl, hc, ht⟩ := h
  refine ⟨by simp, ?_, ?_, ?_⟩
  · intro x hx
    simp at hx
    rw [← hx]
    exact not_ws_of_wordChar hc
  · intro x hx
    cases t with
    | nil =>
      simp at hx
      rw [← hx]
      exact not_ws_of_wordChar hc
    | cons b u =>
      rw [List.getLast?_cons_cons] at hx
      have hxm : x ∈ b :: u := by
        obtain ⟨ys, hys⟩ := List.getLast?_eq_some_iff.1 hx
        rw [hys]
        simp
      exact not_ws_of_wordHyphen (ht x hxm)
  · intro hmem
    rcases List.mem_cons.1 hmem with hx | hx
    · have := not_ws_of_wordChar hc
      rw [← hx] at this
      exact absurd (by decide : isWS '\n' = true) (by simp [this])
    · have := not_ws_of_wordHyphen (ht _ hx)
      exact absurd (by decide : isWS '\n' = true) (by simp [this])

/-! #### `setFM`, `deleteFM`, `appendItemFM` -/

theorem mem_setFM {fm : FM} {k : Str} {v : FMValue} :
    ∀ e ∈ setFM fm k v, e ∈ fm ∨ e = (k, v) := by
  induction fm with
  | nil =>
    intro e he
    simp [setFM] at he
    simp [he]
  | cons p t ih =>
    intro e he
    obtain ⟨k', v'⟩ := p
    simp only [setFM] at he
    by_cases hk : k' = k
    · rw [if_pos hk] at he
      rcases List.mem_cons.1 he with h | h
      · right; rw [h, hk]
      · left; exact List.mem_cons_of_mem _ h
    · rw [if_neg hk] at he
      rcases List.mem_cons.1 he with h | h
      · left; simp [h]
      · rcases ih e h with h2 | h2
        · left; exact List.mem_cons_of_mem _ h2
        · right; exact h2

theorem setFM_fresh {fm : FM} {k : Str} (v : FMValue)
    (h : k ∉ keysFM fm) : setFM fm k v = fm ++ [(k, v)] := by
  induction fm with
  | nil => rfl
  | cons p t ih =>
    obtain ⟨k', v'⟩ := p
    have hk : k' ≠ k := by
      intro hx
      exact h (by simp [keysFM, hx])
    simp only [setFM, if_neg hk]
    rw [ih (fun hx => h (by simp [keysFM] at hx ⊢; right; exact hx))]
    simp

theorem keysFM_setFM_mem {fm : FM} {k : Str} (v : FMValue)
    (h : k ∈ keysFM fm) : keysFM (setFM fm k v) = keysFM fm := by
  induction fm with
  | nil => simp [keysFM] at h
  | cons p t ih =>
    obtain ⟨k', v'⟩ := p
    simp only [setFM]
    by_cases hk : k' = k
    · rw [if_pos hk]
      simp [keysFM]
    · rw [if_neg hk]
      have hmem : k ∈ keysFM t := by
        simp [keysFM] at h
        rcases h with h | h
        · exact absurd h.symm hk
        · simpa [keysFM] using h
      show k' :: keysFM (setFM t k v) = k' :: keysFM t
      rw [ih hmem]

theorem nodup_setFM {fm : FM} {k : Str} (v : FMValue)
    (h : (keysFM fm).Nodup) : (keysFM (setFM fm k v)).Nodup := by
  by_cases hk : k ∈ keysFM fm
  · rw [keysFM_setFM_mem v hk]; exact h
  · rw [setFM_fresh v hk]
    simp only [keysFM, List.map_append, List.map_cons, List.map_nil]
    rw [List.nodup_append]
    exact ⟨h, by simp, by simpa [keysFM] using hk⟩

theorem lookupFM_setFM_same (fm : FM) (k : Str) (v : FMValue) :
    lookupFM (setFM fm k v) k = some v := by
  induction fm with
  | nil => simp [setFM, lookupFM]
  | cons p t ih =>
    obtain ⟨k', v'⟩ := p
    simp only [setFM]
    by_cases hk : k' = k
    · rw [if_pos hk]
      simp [lookupFM, hk]
    · rw [if_neg hk]
      simp [lookupFM, hk, ih]

theorem lookupFM_setFM_other {fm : FM} {k k' : Str} (v : FMValue) (h : k ≠ k') :
    lookupFM (setFM fm k v) k' = lookupFM fm k' := by
  induction fm with
  | nil => simp [setFM, lookupFM, h]
  | cons p t ih =>
    obtain ⟨k2, v2⟩ := p
    simp only [setFM]
    by_cases hk : k2 = k
    · rw [if_pos hk]
      simp [lookupFM, hk, h]
    · rw [if_neg hk]
      simp only [lookupFM]
      by_cases hk2 : k2 = k'
      · rw [if_pos hk2, if_pos hk2]
      · rw [if_neg hk2, if_neg hk2]
        exact ih

theorem deleteFM_sublist (fm : FM) (k : Str) : List.Sublist (deleteFM fm k) fm := by
  induction fm with
  | nil => simp [deleteFM]
  | cons p t ih =>
    obtain ⟨k', v'⟩ := p
    simp only [deleteFM]
    by_cases hk : k' = k
    · rw [if_pos hk]
      exact List.sublist_cons_of_sublist _ (List.Sublist.refl t)
    · rw [if_neg hk]
      exact List.Sublist.cons₂ _ ih

theorem mem_deleteFM {fm : FM} {k : Str} {e : Str × FMValue}
    (h : e ∈ deleteFM fm k) : e ∈ fm :=
  List.Sublist.mem h (deleteFM_sublist fm k)

theorem nodup_deleteFM {fm : FM} (k : Str) (h : (keysFM fm).Nodup) :
    (keysFM (deleteFM fm k)).Nodup :=
  List.Nodup.sublist (List.Sublist.map Prod.fst (deleteFM_sublist fm k)) h

theorem lookupFM_eq_none {fm : FM} {k : Str} (h : k ∉ keysFM fm) :
    lookupFM fm k = none := by
  induction fm with
  | nil => rfl
  | cons p t ih =>
    obtain ⟨k', v'⟩ := p
    have hk : k' ≠ k := fun hx => h (by simp [keysFM, hx])
    simp only [lookupFM, if_neg hk]
    exact ih (fun hx => h (by simp [keysFM] at hx ⊢; right; exact hx))

theorem lookupFM_deleteFM_same {fm : FM} (k : Str) (h : (keysFM fm).Nodup) :
    lookupFM (deleteFM fm k) k = none := by
  induction fm with
  | nil => rfl
  | cons p t ih =>
    obtain ⟨k', v'⟩ := p
    simp only [deleteFM]
    by_cases hk : k' = k
    · rw [if_pos hk]
      have hnotin : k ∉ keysFM t := by
        simp only [keysFM, List.map_cons, List.nodup_cons] at h
        rw [← hk]
        exact fun hx => h.1 (by simpa [keysFM] using hx)
      exact lookupFM_eq_none hnotin
    · rw [if_neg hk]
      simp only [lookupFM, if_neg hk]
      apply ih
      simp only [keysFM, List.map_cons, List.nodup_cons] at h
      exact h.2

theorem lookupFM_deleteFM_other {fm : FM} {k k' : Str} (h : k ≠ k') :
    lookupFM (deleteFM fm k) k' = lookupFM fm k' := by
  induction fm with
  | nil => rfl
  | cons p t ih =>
    obtain ⟨k2, v2⟩ := p
    simp only [deleteFM]
    by_cases hk : k2 = k
    · rw [if_pos hk]
      simp only [lookupFM]
      rw [if_neg (by rw [hk]; exact h)]
    · rw [if_neg hk]
      simp only [lookupFM]
      by_cases hk2 : k2 = k'
      · rw [if_pos hk2, if_pos hk2]
      · rw [if_neg hk2, if_neg hk2]
        exact ih

theorem deleteFM_not_mem {fm : FM} {k : Str} (h : k ∉ keysFM fm) :
    deleteFM fm k = fm := by
  induction fm with
  | nil => rfl
  | cons p t ih =>
    obtain ⟨k', v'⟩ := p
    have hk : k' ≠ k := fun hx => h (by simp [keysFM, hx])
    simp only [deleteFM, if_neg hk]
    rw [ih (fun hx => h (by simp [keysFM] at hx ⊢; right; exact hx))]

theorem keysFM_appendItemFM (fm : FM) (k e : Str) :
    keysFM (appendItemFM fm k e) = keysFM fm := by
  induction fm with
  | nil => rfl
  | cons p t ih =>
    obtain ⟨k', v'⟩ := p
    simp only [appendItemFM]
    by_cases hk : k' = k
    · rw [if_pos hk]
      cases v' <;> simp [keysFM]
    · rw [if_neg hk]
      show k' :: keysFM (appendItemFM t k e) = k' :: keysFM t
      rw [ih]

theorem mem_appendItemFM {fm : FM} {k e : Str} :
    ∀ x ∈ appendItemFM fm k e,
      x ∈ fm ∨ ∃ xs, (k, FMValue.list xs) ∈ fm ∧ x = (k, FMValue.list (xs ++ [e])) := by
  induction fm with
  | nil => intro x hx; simp [appendItemFM] at hx
  | cons p t ih =>
    intro x hx
    obtain ⟨k', v'⟩ := p
    simp only [appendItemFM] at hx
    by_cases hk : k' = k
    · rw [if_pos hk] at hx
      cases v' with
      | str s =>
        rcases List.mem_cons.1 hx with h | h
        · left; simp [h]
        · left; exact List.mem_cons_of_mem _ h
      | list xs =>
        rcases List.mem_cons.1 hx with h | h
        · right
          exact ⟨xs, by simp [hk], by rw [h, hk]⟩
        · left; exact List.mem_cons_of_mem _ h
    · rw [if_neg hk] at hx
      rcases List.mem_cons.1 hx with h | h
      · left; simp [h]
      · rcases ih x h with h2 | h2
        · left; exact List.mem_cons_of_mem _ h2
        · right
          obtain ⟨xs, hmem, hx2⟩ := h2
          exact ⟨xs, List.mem_cons_of_mem _ hmem, hx2⟩

theorem appendItemFM_last {fm : FM} {k : Str} (xs : List Str) (e : Str)
    (h : k ∉ keysFM fm) :
    appendItemFM (fm ++ [(k, FMValue.list xs)]) k e =
      fm ++ [(k, FMValue.list (xs ++ [e]))] := by
  induction fm with
  | nil => simp [appendItemFM]
  | cons p t ih =>
    obtain ⟨k', v'⟩ := p
    have hk : k' ≠ k := fun hx => h (by simp [keysFM, hx])
    simp only [List.cons_append, appendItemFM, if_neg hk]
    show (k', v') :: appendItemFM (t ++ [(k, FMValue.list xs)]) k e =
      (k', v') :: (t ++ [(k, FMValue.list (xs ++ [e]))])
    rw [ih (fun hx => h (by simp [keysFM] at hx ⊢; right; exact hx))]

/-! #### `kvMatch`: characterization -/

theorem kvMatch_some {line k rest : Str} (h : kvMatch line = some (k, rest)) :
    validKey k ∧ line = k ++ ':' :: rest ∧ ∀ x ∈ rest, isLineTerm x = false := by
  cases line with
  | nil => simp [kvMatch] at h
  | cons c t =>
    simp only [kvMatch] at h
    split at h
    · split at h
      · rename_i heq
        split at h
        · rename_i hall
          simp only [Option.some.injEq, Prod.mk.injEq] at h
          obtain ⟨h1, h2⟩ := h
          subst h2
          refine ⟨?_, ?_, ?_⟩
          · rw [← h1]
            refine ⟨c, t.takeWhile isWordHyphen, rfl, by assumption, ?_⟩
            intro x hx
            exact List.mem_takeWhile_imp hx
          · rw [← h1]
            have hsplit : t.takeWhile isWordHyphen ++ t.dropWhile isWordHyphen = t :=
              List.takeWhile_append_dropWhile isWordHyphen t
            conv_lhs => rw [← hsplit, heq]
            simp
          · intro x hx
            have hx2 := List.all_eq_true.1 hall x hx
            simpa using hx2
        · cases h
      · cases h
    · cases h

theorem kvMatch_mk {k : Str} (hk : validKey k) (rest : Str)
    (hrest : ∀ x ∈ rest, isLineTerm x = false) :
    kvMatch (k ++ ':' :: rest) = some (k, rest) := by
  obtain ⟨c, t, rfl, hc, ht⟩ := hk
  have hall : rest.all (fun x => !isLineTerm x) = true := by
    rw [List.all_eq_true]
    intro x hx
    rw [Bool.not_eq_true']
    exact hrest x hx
  show kvMatch (c :: (t ++ ':' :: rest)) = _
  simp only [kvMatch]
  rw [if_pos hc]
  rw [List.dropWhile_append_of_pos ht, List.takeWhile_append_of_pos ht]
  rw [List.dropWhile_cons_of_neg (by simp [isWordHyphen, isWordChar]),
      List.takeWhile_cons_of_neg (by simp [isWordHyphen, isWordChar])]
  simp [hall]

/-! #### Preservation of well-formedness by the parse loop -/

theorem WFfm_setFM {fm : FM} {k : Str} {v : FMValue}
    (hfm : WFfm fm) (hk : validKey k) (hv : WFval v) : WFfm (setFM fm k v) := by
  refine ⟨nodup_setFM v hfm.1, ?_⟩
  intro e he
  rcases mem_setFM e he with h | h
  · exact hfm.2 e h
  · rw [h]; exact ⟨hk, hv⟩

theorem WFfm_deleteFM {fm : FM} (k : Str) (hfm : WFfm fm) : WFfm (deleteFM fm k) :=
  ⟨nodup_deleteFM k hfm.1, fun e he => hfm.2 e (mem_deleteFM he)⟩

theorem WFfm_appendItemFM {fm : FM} {k e : Str}
    (hfm : WFfm fm) (he : WFstr e) : WFfm (appendItemFM fm k e) := by
  constructor
  · rw [keysFM_appendItemFM]; exact hfm.1
  · intro x hx
    rcases mem_appendItemFM x hx with h | h
    · exact hfm.2 x h
    · obtain ⟨xs, hmem, hx2⟩ := h
      have hold := hfm.2 _ hmem
      rw [hx2]
      refine ⟨hold.1, by simp, ?_⟩
      intro y hy
      rcases List.mem_append.1 hy with hy | hy
      · exact hold.2.2 y hy
      · simp at hy; rw [hy]; exact he

theorem WFstr_trim {u : Str} (hne : trim u ≠ []) (hnl : '\n' ∉ u) : WFstr (trim u) :=
  ⟨hne, fun _ hc => trim_head?_not_ws hc, fun _ hc => trim_getLast?_not_ws hc,
    fun hm => hnl (trim_mem hm)⟩

theorem InvY_kvStep {st : YState} {line : Str} (hst : InvY st) (hnl : '\n' ∉ line) :
    InvY (kvStep st line) := by
  unfold kvStep
  cases hkv : kvMatch line with
  | none => exact hst
  | some p =>
    obtain ⟨k, rest⟩ := p
    obtain ⟨hk, hline, -⟩ := kvMatch_some hkv
    have hrest : '\n' ∉ rest := by
      intro hm
      exact hnl (by rw [hline]; simp [hm])
    change InvY (if trim rest = [] then YState.mk st.fm (some k) false
      else YState.mk (setFM st.fm k (FMValue.str (trim rest))) (some k) false)
    by_cases hv : trim rest = []
    · rw [if_pos hv]
      exact ⟨hst.1, fun k' hk' => by cases hk'; exact hk⟩
    · rw [if_neg hv]
      refine ⟨WFfm_setFM hst.1 hk ?_, fun k' hk' => by cases hk'; exact hk⟩
      exact WFstr_trim hv hrest

theorem InvY_yamlStep {st : YState} {line : Str} (hst : InvY st) (hnl : '\n' ∉ line) :
    InvY (yamlStep st line) := by
  unfold yamlStep
  by_cases ht0 : trim line = []
  · rw [if_pos ht0]; exact hst
  · rw [if_neg ht0]
    cases hcur : st.cur with
    | none => exact InvY_kvStep hst hnl
    | some k =>
      change InvY (if (['-', ' '] : Str).isPrefixOf (trim line) then
          (if st.arr then YState.mk (appendItemFM st.fm k (trim ((trim line).drop 2))) (some k) st.arr
           else YState.mk (setFM st.fm k (FMValue.list [trim ((trim line).drop 2)])) (some k) true)
        else kvStep st line)
      by_cases hpre : (['-', ' '] : Str).isPrefixOf (trim line) = true
      · rw [if_pos hpre]
        obtain ⟨u, hu⟩ := (isPrefixOf_iff_append _ _).1 hpre
        have hdrop : (trim line).drop 2 = u := by rw [hu]; rfl
        have hune : u ≠ [] := by
          intro h0
          have hts : trim line = ['-', ' '] := by rw [hu, h0]; rfl
          have hws := @trim_getLast?_not_ws line ' ' (by rw [hts]; rfl)
          exact absurd hws (by decide)
        have hulast : ∃ c, u.getLast? = some c ∧ isWS c = false := by
          obtain ⟨c, hc⟩ := Option.ne_none_iff_exists'.1
            (show u.getLast? ≠ none by simpa using hune)
          refine ⟨c, hc, ?_⟩
          apply @trim_getLast?_not_ws line c
          rw [hu]
          cases u with
          | nil => exact absurd rfl hune
          | cons x y =>
            rw [show (['-', ' '] : Str) ++ x :: y = '-' :: ' ' :: x :: y from rfl]
            rw [List.getLast?_cons_cons, List.getLast?_cons_cons]
            exact hc
        obtain ⟨c, hcl, hcw⟩ := hulast
        have hetrim : trim u ≠ [] := trim_ne_nil_of_getLast hcl hcw
        have hunl : '\n' ∉ u := by
          intro hm
          exact hnl (@trim_mem line _ (by rw [hu]; simp [hm]))
        have hkvalid := hst.2 k hcur
        have hwfe : WFstr (trim u) := WFstr_trim hetrim hunl
        rw [hdrop]
        by_cases harr : st.arr = true
        · rw [if_pos harr]
          exact ⟨WFfm_appendItemFM hst.1 hwfe, fun k' hk' => by cases hk'; exact hkvalid⟩
        · rw [if_neg harr]
          refine ⟨WFfm_setFM hst.1 hkvalid ⟨by simp, ?_⟩,
            fun k' hk' => by cases hk'; exact hkvalid⟩
          intro x hx
          simp at hx
          rw [hx]
          exact hwfe
      · rw [if_neg hpre]
        exact InvY_kvStep hst hnl

theorem InvY_foldl {lines : List Str} :
    ∀ st : YState, InvY st → (∀ l ∈ lines, '\n' ∉ l) →
      InvY (lines.foldl yamlStep st) := by
  induction lines with
  | nil => intro st h _; exact h
  | cons l ls ih =>
    intro st h hnl
    rw [List.foldl_cons]
    exact ih _ (InvY_yamlStep h (hnl l (by simp)))
      (fun x hx => hnl x (List.mem_cons_of_mem _ hx))

/-- Everything `parseFrontmatter`'s header loop produces is well-formed. -/
theorem WFfm_parseYamlLines (raw : Str) :
    WFfm (parseYamlLines (splitOnChar '\n' raw)) := by
  unfold parseYamlLines
  have hinv : InvY ((splitOnChar '\n' raw).foldl yamlStep ⟨[], none, false⟩) := by
    apply InvY_foldl
    · exact ⟨⟨by simp [keysFM], by simp⟩, by simp⟩
    · exact splitOnChar_no_sep '\n' raw
  exact hinv.1

/-- The parse loop only ever stores scalars drawn from a `kvMatch` value
group, which the regex guarantees free of line terminators. -/
theorem scalarLTFM_kvStep {st : YState} {line : Str}
    (h : ∀ e ∈ st.fm, ScalarLT e.2) :
    ∀ e ∈ (kvStep st line).fm, ScalarLT e.2 := by
  unfold kvStep
  cases hkv : kvMatch line with
  | none => exact h
  | some p =>
    obtain ⟨k, rest⟩ := p
    obtain ⟨-, -, hrest⟩ := kvMatch_some hkv
    by_cases hv : trim rest = []
    · show ∀ e ∈ (if trim rest = [] then YState.mk st.fm (some k) false
        else YState.mk (setFM st.fm k (FMValue.str (trim rest))) (some k) false).fm,
        ScalarLT e.2
      rw [if_pos hv]
      exact h
    · show ∀ e ∈ (if trim rest = [] then YState.mk st.fm (some k) false
        else YState.mk (setFM st.fm k (FMValue.str (trim rest))) (some k) false).fm,
        ScalarLT e.2
      rw [if_neg hv]
      intro e he
      rcases mem_setFM e he with h1 | h1
      · exact h e h1
      · rw [h1]
        intro x hx
        exact hrest x (trim_mem hx)

theorem scalarLTFM_yamlStep {st : YState} {line : Str}
    (h : ∀ e ∈ st.fm, ScalarLT e.2) :
    ∀ e ∈ (yamlStep st line).fm, ScalarLT e.2 := by
  unfold yamlStep
  by_cases ht0 : trim line = []
  · rw [if_pos ht0]
    exact h
  · rw [if_neg ht0]
    cases hcur : st.cur with
    | none => exact scalarLTFM_kvStep h
    | some k =>
      change ∀ e ∈ (if (['-', ' '] : Str).isPrefixOf (trim line) then
          (if st.arr then YState.mk (appendItemFM st.fm k (trim ((trim line).drop 2))) (some k) st.arr
           else YState.mk (setFM st.fm k (FMValue.list [trim ((trim line).drop 2)])) (some k) true)
        else kvStep st line).fm, ScalarLT e.2
      by_cases hpre : (['-', ' '] : Str).isPrefixOf (trim line) = true
      · rw [if_pos hpre]
        by_cases harr : st.arr = true
        · rw [if_pos harr]
          intro e he
          rcases mem_appendItemFM e he with h1 | h1
          · exact h e h1
          · obtain ⟨xs, -, h2⟩ := h1
            rw [h2]
            trivial
        · rw [if_neg harr]
          intro e he
          rcases mem_setFM e he with h1 | h1
          · exact h e h1
          · rw [h1]
            trivial
      · rw [if_neg hpre]
        exact scalarLTFM_kvStep h

theorem scalarLTFM_parseYamlLines (lines : List Str) :
    ∀ e ∈ parseYamlLines lines, ScalarLT e.2 := by
  unfold parseYamlLines
  have hgen : ∀ (ls : List Str) (st : YState), (∀ e ∈ st.fm, ScalarLT e.2) →
      ∀ e ∈ (ls.foldl yamlStep st).fm, ScalarLT e.2 := by
    intro ls
    induction ls with
    | nil => intro st h; exact h
    | cons l t ih =>
      intro st h
      rw [List.foldl_cons]
      exact ih _ (scalarLTFM_yamlStep h)
  exact hgen lines _ (by intro e he; simp at he)

/-! ### Serialized headers: line shape and re-splitting -/

theorem serializeEntry_goodLines {k : Str} {v : FMValue}
    (hk : validKey k) (hv : WFval v) : ∀ l ∈ serializeEntry (k, v), goodLine l := by
  obtain ⟨c, t, rfl, hc, ht⟩ := hk
  have hcnw : c ≠ '-' := by
    intro hx
    rw [hx] at hc
    exact absurd hc (by decide)
  have hknl : '\n' ∉ c :: t := (validKey_not_ws ⟨c, t, rfl, hc, ht⟩).2.2.2
  intro l hl
  cases v with
  | str s =>
    simp only [serializeEntry] at hl
    simp at hl
    rw [hl]
    constructor
    · intro hm
      have hm2 : '\n' = c ∨ '\n' ∈ t ++ ':' :: ' ' :: s := by
        simpa using List.mem_cons.1 hm
      rcases hm2 with hm2 | hm2
      · exact hknl (by simp [← hm2])
      · rcases List.mem_append.1 hm2 with hm3 | hm3
        · exact hknl (List.mem_cons_of_mem _ hm3)
        · rcases List.mem_cons.1 hm3 with hx | hx
          · cases hx
          · rcases List.mem_cons.1 hx with hy | hy
            · cases hy
            · exact hv.2.2.2 hy
    · intro hx
      have hc2 : c = '-' := by
        have := congrArg List.head? hx
        simpa using this
      exact hcnw hc2
  | list xs =>
    simp only [serializeEntry] at hl
    rcases List.mem_cons.1 hl with hl | hl
    · rw [hl]
      constructor
      · intro hm
        have hm2 : '\n' = c ∨ '\n' ∈ t ++ [':'] := by
          simpa using List.mem_cons.1 hm
        rcases hm2 with hm2 | hm2
        · exact hknl (by simp [← hm2])
        · rcases List.mem_append.1 hm2 with hm3 | hm3
          · exact hknl (List.mem_cons_of_mem _ hm3)
          · simp at hm3
      · intro hx
        have hc2 : c = '-' := by
          have := congrArg List.head? hx
          simpa using this
        exact hcnw hc2
    · obtain ⟨x, hx, hlx⟩ := List.mem_map.1 hl
      rw [← hlx]
      constructor
      · intro hm
        rcases List.mem_cons.1 hm with hm | hm
        · cases hm
        · rcases List.mem_cons.1 hm with hm | hm
          · cases hm
          · rcases List.mem_cons.1 hm with hm | hm
            · cases hm
            · rcases List.mem_cons.1 hm with hm | hm
              · cases hm
              · exact (hv.2 x hx).2.2.2 hm
      · intro hx2
        cases hx2

theorem serializeFMLines_goodLines {fm : FM} (hWF : WFfm fm) :
    ∀ l ∈ serializeFMLines fm, goodLine l := by
  induction fm with
  | nil => intro l hl; simp [serializeFMLines] at hl
  | cons e rest ih =>
    intro l hl
    obtain ⟨k, v⟩ := e
    simp only [serializeFMLines] at hl
    rcases List.mem_append.1 hl with hl | hl
    · have he := hWF.2 (k, v) (by simp)
      exact serializeEntry_goodLines he.1 he.2 l hl
    · apply ih _ l hl
      refine ⟨?_, fun x hx => hWF.2 x (List.mem_cons_of_mem _ hx)⟩
      have := hWF.1
      simp only [keysFM, List.map_cons, List.nodup_cons] at this
      exact this.2

/-- Prepending a newline-free chunk commutes with searching for a
newline-initial pattern. -/
theorem splitFirst_nl_chunk {pat s l : Str}
    (hpat : pat.head? = some '\n') (hl : '\n' ∉ l) :
    splitFirst pat (l ++ s) = (splitFirst pat s).map (fun p => (l ++ p.1, p.2)) := by
  induction l with
  | nil =>
    simp only [List.nil_append]
    cases splitFirst pat s with
    | none => rfl
    | some p => rfl
  | cons c l' ih =>
    obtain ⟨pt, hpt⟩ : ∃ pt, pat = '\n' :: pt := by
      cases pat with
      | nil => cases hpat
      | cons a q => simp at hpat; rw [hpat]; exact ⟨q, rfl⟩
    have hcn : c ≠ '\n' := fun hx => hl (by simp [hx])
    rw [List.cons_append]
    show splitFirst pat (c :: (l' ++ s)) = _
    simp only [splitFirst]
    rw [hpt, isPrefixOf_cons_false hcn, ← hpt]
    simp only [Bool.false_eq_true, if_false]
    rw [ih (fun hx => hl (List.mem_cons_of_mem _ hx))]
    cases splitFirst pat s with
    | none => rfl
    | some p => rfl

/-- The closing pattern `\n---\n` cannot match at the junction of a good
line and a newline-headed remainder. -/
theorem marker_not_at_chunk {h X : Str} (hnl : '\n' ∉ h) (hne : h ≠ ['-', '-', '-'])
    (hX : X.head? = some '\n') :
    (['-', '-', '-', '\n'] : Str).isPrefixOf (h ++ X) = false := by
  cases hb : (['-', '-', '-', '\n'] : Str).isPrefixOf (h ++ X)
  · rfl
  · exfalso
    obtain ⟨r, hr⟩ := (isPrefixOf_iff_append _ _).1 hb
    match h, hnl, hne, hr with
    | [], _, _, hr =>
      rw [List.nil_append] at hr
      rw [hr] at hX
      simp at hX
    | [a], _, _, hr =>
      simp at hr
      obtain ⟨_, hr2⟩ := hr
      rw [hr2] at hX
      simp at hX
    | [a, b], _, _, hr =>
      simp at hr
      obtain ⟨_, _, hr3⟩ := hr
      rw [hr3] at hX
      simp at hX
    | [a, b, c], _, hne, hr =>
      simp at hr
      exact hne (by simp [hr.1, hr.2.1, hr.2.2.1])
    | a :: b :: c :: d :: t, hnl, _, hr =>
      simp at hr
      exact hnl (by simp [hr.2.2.1, hr.2.2.2.1])

/-- Searching a serialized header followed by `\n---\n` and a body finds
the marker exactly at the junction. -/
theorem splitFirst_joinWith {b : Str} :
    ∀ L : List Str, (∀ l ∈ L, goodLine l) →
      splitFirst fmClose (joinWith '\n' L ++ fmClose ++ b) =
        some (joinWith '\n' L, b) := by
  intro L
  induction L with
  | nil =>
    intro _
    show splitFirst fmClose (([] : Str) ++ fmClose ++ b) = some ([], b)
    rw [List.nil_append]
    exact splitFirst_self b (by simp [fmClose])
  | cons l L' ih =>
    intro hgood
    cases L' with
    | nil =>
      show splitFirst fmClose ((joinWith '\n' [l]) ++ fmClose ++ b) = some (joinWith '\n' [l], b)
      rw [show joinWith '\n' [l] = l from rfl]
      rw [List.append_assoc]
      rw [splitFirst_nl_chunk (by rfl) (hgood l (by simp)).1]
      rw [splitFirst_self b (by simp [fmClose])]
      simp
    | cons m L'' =>
      have hnot : (['-', '-', '-', '\n'] : Str).isPrefixOf
          (joinWith '\n' (m :: L'') ++ (fmClose ++ b)) = false := by
        cases L'' with
        | nil =>
          rw [show joinWith '\n' [m] = m from rfl]
          exact marker_not_at_chunk (hgood m (by simp)).1 (hgood m (by simp)).2
            (by simp [fmClose])
        | cons m2 L3 =>
          rw [joinWith_cons₂, List.append_assoc, List.cons_append]
          exact marker_not_at_chunk (hgood m (by simp)).1 (hgood m (by simp)).2 rfl
      rw [joinWith_cons₂, List.append_assoc, List.append_assoc, List.cons_append]
      rw [splitFirst_nl_chunk (by rfl) (hgood l (by simp)).1]
      have hstep : splitFirst fmClose ('\n' :: (joinWith '\n' (m :: L'') ++ (fmClose ++ b))) =
          (splitFirst fmClose (joinWith '\n' (m :: L'') ++ (fmClose ++ b))).map
            (fun p => ('\n' :: p.1, p.2)) := by
        simp only [splitFirst]
        rw [if_neg ?hneg]
        case hneg =>
          intro hpre
          have h2 : (['-', '-', '-', '\n'] : Str).isPrefixOf
              (joinWith '\n' (m :: L'') ++ (fmClose ++ b)) = true := by
            simpa [fmClose, List.isPrefixOf] using hpre
          rw [hnot] at h2
          cases h2
      rw [hstep]
      have hIH := ih (fun x hx => hgood x (List.mem_cons_of_mem _ hx))
      rw [List.append_assoc] at hIH
      rw [hIH]
      rfl

/-! ### Re-parsing a serialized header reproduces the mapping -/

theorem isWS_space : isWS ' ' = true := by decide

theorem trim_space_cons {v : Str} (hv : WFstr v) : trim (' ' :: v) = v := by
  obtain ⟨hne, hh, hl, _⟩ := hv
  unfold trim
  rw [List.dropWhile_cons_of_pos (by simp [isWS_space])]
  have hdw : v.dropWhile isWS = v := by
    cases v with
    | nil => rfl
    | cons a t => exact dropWhile_cons_neg (hh a rfl)
  rw [hdw]
  exact trimRight_eq_self hl

theorem trim_scalar_line {k v : Str} (hk : validKey k) (hv : WFstr v) :
    trim (k ++ ':' :: ' ' :: v) = k ++ ':' :: ' ' :: v := by
  obtain ⟨c, t, rfl, hc, ht⟩ := hk
  apply trim_eq_self
  · intro x hx
    rw [show (c :: t ++ ':' :: ' ' :: v).head? = some c from rfl] at hx
    cases hx
    exact not_ws_of_wordChar hc
  · intro x hx
    rw [show c :: t ++ ':' :: ' ' :: v = (c :: t ++ [':', ' ']) ++ v by simp] at hx
    rw [List.getLast?_append] at hx
    cases hvv : v.getLast? with
    | none => exact absurd (List.getLast?_eq_none_iff.1 hvv) hv.1
    | some y =>
      rw [hvv] at hx
      simp at hx
      rw [← hx]
      exact hv.2.2.1 y hvv

theorem trim_keyonly_line {k : Str} (hk : validKey k) :
    trim (k ++ [':']) = k ++ [':'] := by
  obtain ⟨c, t, rfl, hc, ht⟩ := hk
  apply trim_eq_self
  · intro x hx
    rw [show (c :: t ++ [':']).head? = some c from rfl] at hx
    cases hx
    exact not_ws_of_wordChar hc
  · intro x hx
    rw [List.getLast?_append] at hx
    simp at hx
    rw [← hx]
    exact not_ws_colon

theorem trim_item_line {x : Str} (hx : WFstr x) :
    trim (itemLine x) = '-' :: ' ' :: x := by
  unfold trim itemLine
  rw [List.dropWhile_cons_of_pos (by simp [isWS_space]),
      List.dropWhile_cons_of_pos (by simp [isWS_space]),
      dropWhile_cons_neg not_ws_hyphen]
  apply trimRight_eq_self
  intro c hc
  obtain ⟨hne, _, hl, _⟩ := hx
  cases hxs : x with
  | nil => exact absurd hxs hne
  | cons a u =>
    rw [hxs] at hc
    rw [List.getLast?_cons_cons, List.getLast?_cons_cons] at hc
    exact hl c (by rw [hxs]; exact hc)

theorem validKey_head_ne_hyphen {c : Char} (hc : isWordChar c = true) :
    c ≠ '-' := by
  intro hx
  rw [hx] at hc
  exact absurd hc (by decide)

theorem yamlStep_not_item {st : YState} {line : Str} (ht0 : trim line ≠ [])
    (hpre : (['-', ' '] : Str).isPrefixOf (trim line) = false) :
    yamlStep st line = kvStep st line := by
  unfold yamlStep
  rw [if_neg ht0]
  cases hc2 : st.cur with
  | none => rfl
  | some k =>
    simp only []
    rw [hpre]
    simp

theorem yamlStep_item {st : YState} {line : Str} {k : Str}
    (hcur : st.cur = some k) (ht0 : trim line ≠ [])
    (hpre : (['-', ' '] : Str).isPrefixOf (trim line) = true) :
    yamlStep st line =
      (if st.arr then YState.mk (appendItemFM st.fm k (trim ((trim line).drop 2))) (some k) st.arr
       else YState.mk (setFM st.fm k (FMValue.list [trim ((trim line).drop 2)])) (some k) true) := by
  unfold yamlStep
  rw [if_neg ht0, hcur]
  simp only []
  rw [hpre]
  simp

theorem yamlStep_scalar_line {st : YState} {k v : Str}
    (hk : validKey k) (hv : WFstr v)
    (hlt : ∀ x ∈ v, isLineTerm x = false) :
    yamlStep st (k ++ ':' :: ' ' :: v) =
      ⟨setFM st.fm k (FMValue.str v), some k, false⟩ := by
  have htr := trim_scalar_line hk hv
  have hkv0 : kvStep st (k ++ ':' :: ' ' :: v) =
      ⟨setFM st.fm k (FMValue.str v), some k, false⟩ := by
    unfold kvStep
    rw [kvMatch_mk hk (' ' :: v) (by
      intro x hx
      rcases List.mem_cons.1 hx with h1 | h1
      · rw [h1]; decide
      · exact hlt x h1)]
    change (if trim (' ' :: v) = [] then YState.mk st.fm (some k) false
      else YState.mk (setFM st.fm k (FMValue.str (trim (' ' :: v)))) (some k) false) = _
    rw [trim_space_cons hv, if_neg hv.1]
  rw [@yamlStep_not_item st _ (by rw [htr]; obtain ⟨c, t, rfl, _, _⟩ := hk; simp) ?hpre]
  · exact hkv0
  case hpre =>
    rw [htr]
    obtain ⟨c, t, rfl, hc, _⟩ := hk
    rw [show (c :: t ++ ':' :: ' ' :: v) = c :: (t ++ ':' :: ' ' :: v) from rfl]
    exact isPrefixOf_cons_false (validKey_head_ne_hyphen hc)

theorem yamlStep_keyonly_line {st : YState} {k : Str} (hk : validKey k) :
    yamlStep st (k ++ [':']) = ⟨st.fm, some k, false⟩ := by
  have htr := trim_keyonly_line hk
  have hkv0 : kvStep st (k ++ [':']) = ⟨st.fm, some k, false⟩ := by
    unfold kvStep
    rw [show (k ++ [':']) = k ++ ':' :: ([] : Str) from rfl,
      kvMatch_mk hk [] (by intro x hx; cases hx)]
    change (if trim ([] : Str) = [] then YState.mk st.fm (some k) false
      else YState.mk (setFM st.fm k (FMValue.str (trim ([] : Str)))) (some k) false) = _
    rw [if_pos trim_nil]
  rw [@yamlStep_not_item st _ (by rw [htr]; obtain ⟨c, t, rfl, _, _⟩ := hk; simp) ?hpre]
  · exact hkv0
  case hpre =>
    rw [htr]
    obtain ⟨c, t, rfl, hc, _⟩ := hk
    rw [show (c :: t ++ [':']) = c :: (t ++ [':']) from rfl]
    exact isPrefixOf_cons_false (validKey_head_ne_hyphen hc)

theorem yamlStep_item_line {st : YState} {k x : Str}
    (hcur : st.cur = some k) (hx : WFstr x) :
    yamlStep st (itemLine x) =
      (if st.arr then YState.mk (appendItemFM st.fm k x) (some k) st.arr
       else YState.mk (setFM st.fm k (FMValue.list [x])) (some k) true) := by
  have htr := trim_item_line hx
  have htx : trim x = x := trim_eq_self hx.2.1 hx.2.2.1
  rw [yamlStep_item hcur (by rw [htr]; simp) (by rw [htr]; exact isPrefixOf_append ['-', ' '] x)]
  rw [htr]
  rw [show (('-' :: ' ' :: x).drop 2) = x from rfl, htx]

theorem foldl_items {k : Str} :
    ∀ (xs done : List Str) (acc : FM),
      k ∉ keysFM acc → (∀ x ∈ xs, WFstr x) →
      ((xs.map itemLine).foldl yamlStep
          ⟨acc ++ [(k, FMValue.list done)], some k, true⟩) =
        ⟨acc ++ [(k, FMValue.list (done ++ xs))], some k, true⟩ := by
  intro xs
  induction xs with
  | nil => intro done acc _ _; simp
  | cons x xs' ih =>
    intro done acc hfresh hwf
    rw [List.map_cons, List.foldl_cons]
    rw [@yamlStep_item_line _ k _ rfl (hwf x (by simp))]
    simp only [if_pos rfl]
    rw [show appendItemFM (acc ++ [(k, FMValue.list done)]) k x =
        acc ++ [(k, FMValue.list (done ++ [x]))] from appendItemFM_last done x hfresh]
    simp only [if_true]
    rw [ih (done ++ [x]) acc hfresh (fun y hy => hwf y (List.mem_cons_of_mem _ hy))]
    simp

theorem foldl_serialized :
    ∀ (fm acc : FM) (cur : Option Str) (arr : Bool),
      (∀ e ∈ fm, validKey e.1 ∧ WFval e.2) → (keysFM fm).Nodup →
      (∀ e ∈ fm, ScalarLT e.2) →
      (∀ kk ∈ keysFM fm, kk ∉ keysFM acc) →
      ((serializeFMLines fm).foldl yamlStep ⟨acc, cur, arr⟩).fm = acc ++ fm := by
  intro fm
  induction fm with
  | nil => intro acc cur arr _ _ _ _; simp [serializeFMLines]
  | cons e rest ih =>
    intro acc cur arr hwf hnodup hscal hdisj
    obtain ⟨k, v⟩ := e
    have hkv := hwf (k, v) (by simp)
    have hkfresh : k ∉ keysFM acc := hdisj k (by simp [keysFM])
    have hknotrest : k ∉ keysFM rest := by
      have := hnodup
      simp only [keysFM, List.map_cons, List.nodup_cons] at this
      exact fun hx => this.1 (by simpa [keysFM] using hx)
    have hrestwf : ∀ e ∈ rest, validKey e.1 ∧ WFval e.2 :=
      fun e he => hwf e (List.mem_cons_of_mem _ he)
    have hrestsc : ∀ e ∈ rest, ScalarLT e.2 :=
      fun e he => hscal e (List.mem_cons_of_mem _ he)
    have hrestnodup : (keysFM rest).Nodup := by
      have := hnodup
      simp only [keysFM, List.map_cons, List.nodup_cons] at this
      exact this.2
    have hrestdisj : ∀ kk ∈ keysFM rest,
        kk ∉ keysFM (acc ++ [(k, v)]) := by
      intro kk hkk hmem
      simp only [keysFM, List.map_append, List.map_cons, List.map_nil,
        List.mem_append, List.mem_cons] at hmem
      rcases hmem with hmem | hmem
      · exact hdisj kk (List.mem_cons_of_mem _ hkk) hmem
      · rcases hmem with hmem | hmem
        · exact hknotrest (by rw [← hmem]; exact hkk)
        · cases hmem
    cases v with
    | str s =>
      show ((serializeEntry (k, FMValue.str s) ++ serializeFMLines rest).foldl
        yamlStep ⟨acc, cur, arr⟩).fm = acc ++ (k, FMValue.str s) :: rest
      rw [show serializeEntry (k, FMValue.str s) = [k ++ ':' :: ' ' :: s] from rfl]
      rw [List.cons_append, List.nil_append, List.foldl_cons]
      rw [yamlStep_scalar_line hkv.1 hkv.2 (hscal (k, FMValue.str s) (by simp))]
      rw [setFM_fresh _ hkfresh]
      rw [ih (acc ++ [(k, FMValue.str s)]) (some k) false hrestwf hrestnodup
        hrestsc hrestdisj]
      simp
    | list xs =>
      show ((serializeEntry (k, FMValue.list xs) ++ serializeFMLines rest).foldl
        yamlStep ⟨acc, cur, arr⟩).fm = acc ++ (k, FMValue.list xs) :: rest
      rw [show serializeEntry (k, FMValue.list xs) =
        (k ++ [':']) :: xs.map itemLine from rfl]
      rw [List.cons_append, List.foldl_cons]
      rw [yamlStep_keyonly_line hkv.1]
      obtain ⟨x0, xs', hxs⟩ : ∃ x0 xs', xs = x0 :: xs' := by
        cases hxx : xs with
        | nil => exact absurd (hxx ▸ hkv.2.1) (by simp)
        | cons a b => exact ⟨a, b, rfl⟩
      have hxswf : ∀ x ∈ xs, WFstr x := hkv.2.2
      rw [hxs, List.map_cons, List.cons_append, List.foldl_cons]
      rw [List.foldl_append]
      rw [@yamlStep_item_line _ k _ rfl (hxswf x0 (by rw [hxs]; simp))]
      simp only [Bool.false_eq_true, if_false]
      rw [setFM_fresh _ hkfresh]
      rw [foldl_items xs' [x0] acc hkfresh
        (fun y hy => hxswf y (by rw [hxs]; exact List.mem_cons_of_mem _ hy))]
      have : ([x0] ++ xs' : List Str) = x0 :: xs' := rfl
      rw [this, ← hxs]
      rw [ih (acc ++ [(k, FMValue.list xs)]) (some k) true hrestwf hrestnodup
        hrestsc hrestdisj]
      simp

theorem serializeFMLines_ne_nil {e : Str × FMValue} (rest : FM) :
    serializeFMLines (e :: rest) ≠ [] := by
  obtain ⟨k, v⟩ := e
  cases v <;> simp [serializeFMLines, serializeEntry]

/-- Re-parsing a serialized well-formed mapping whose scalars hold no line
terminator reproduces it exactly. -/
theorem parseYaml_serialize {fm : FM} (hWF : WFfm fm)
    (hsc : ∀ e ∈ fm, ScalarLT e.2) :
    parseYamlLines (splitOnChar '\n' (serializeFrontmatter fm)) = fm := by
  cases hfm : fm with
  | nil => rfl
  | cons e rest =>
    rw [← hfm]
    unfold serializeFrontmatter
    rw [splitOnChar_joinWith (serializeFMLines fm)
      (by rw [hfm]; exact serializeFMLines_ne_nil rest)
      (fun l hl => (serializeFMLines_goodLines hWF l hl).1)]
    unfold parseYamlLines
    rw [foldl_serialized fm [] none false (fun e he => hWF.2 e he) hWF.1 hsc
      (by simp [keysFM])]
    simp

theorem parseSplit_reconstruct {fm : FM} (b : Str) (hWF : WFfm fm) :
    parseSplit (reconstructMarkdown fm b) = some (serializeFrontmatter fm, b) := by
  unfold parseSplit reconstructMarkdown
  rw [show fmOpen ++ serializeFrontmatter fm ++ fmClose ++ b =
    fmOpen ++ (serializeFrontmatter fm ++ fmClose ++ b) by simp]
  rw [if_pos (isPrefixOf_append fmOpen _)]
  rw [List.drop_left' (show fmOpen.length = fmOpen.length from rfl)]
  show splitFirst fmClose (joinWith '\n' (serializeFMLines fm) ++ fmClose ++ b) =
    some (serializeFrontmatter fm, b)
  rw [splitFirst_joinWith (serializeFMLines fm) (serializeFMLines_goodLines hWF)]
  rfl

/-- Round-trip: parsing the reconstruction of a well-formed mapping with any
body recovers the mapping, the body, and the serialized raw header. -/
theorem parseFrontmatter_reconstruct {fm : FM} (b : Str) (hWF : WFfm fm)
    (hsc : ∀ e ∈ fm, ScalarLT e.2) :
    parseFrontmatter (reconstructMarkdown fm b) =
      (some fm, b, some (serializeFrontmatter fm)) := by
  unfold parseFrontmatter
  rw [parseSplit_reconstruct b hWF]
  show (some (parseYamlLines (splitOnChar '\n' (serializeFrontmatter fm))), b,
    some (serializeFrontmatter fm)) = _
  rw [parseYaml_serialize hWF hsc]

/-! ### Claim C1 -/

/-- C1: Round-trip law of the frontmatter codec.  For every frontmatter
mapping `m` and body `b` that `parseFrontmatter` produces from some
document, parsing the document built by serializing `m` and wrapping it in
the header markers together with `b`
(`Parse(Reconstruct(Serialize(m), body))`) yields exactly the mapping `m`
and the body `b` (with the serialized header as the raw group). -/
theorem c1_frontmatter_roundtrip (d : Str) (m : FM) (b : Str) (r : Option Str)
    (h : parseFrontmatter d = (some m, b, r)) :
    parseFrontmatter (reconstructMarkdown m b) =
      (some m, b, some (serializeFrontmatter m)) := by
  have hWF : WFfm m := by
    unfold parseFrontmatter at h
    cases hps : parseSplit d with
    | none =>
      rw [hps] at h
      simp at h
    | some p =>
      obtain ⟨raw, body⟩ := p
      rw [hps] at h
      simp only [Prod.mk.injEq, Option.some.injEq] at h
      rw [← h.1]
      exact WFfm_parseYamlLines raw
  have hsc : ∀ e ∈ m, ScalarLT e.2 := by
    unfold parseFrontmatter at h
    cases hps : parseSplit d with
    | none =>
      rw [hps] at h
      simp at h
    | some p =>
      obtain ⟨raw, body⟩ := p
      rw [hps] at h
      simp only [Prod.mk.injEq, Option.some.injEq] at h
      rw [← h.1]
      exact scalarLTFM_parseYamlLines (splitOnChar '\n' raw)
  exact parseFrontmatter_reconstruct b hWF hsc

/-- Witness for C1 at a concrete document. -/
theorem c1_frontmatter_roundtrip_witness :
    parseFrontmatter (reconstructMarkdown
        [("key".data, FMValue.str "val".data)] "body".data) =
      (some [("key".data, FMValue.str "val".data)], "body".data,
        some (serializeFrontmatter [("key".data, FMValue.str "val".data)])) :=
  c1_frontmatter_roundtrip "---\nkey: val\n---\nbody".data
    [("key".data, FMValue.str "val".data)] "body".data
    (some "key: val".data) (by decide)

/-! ### Claims C2 and C3: the file-inclusion rewrite -/

/-- C2: File-inclusion run detection.  On the body
`@a/b.md\n@c/d.md\ntext\n@e.md` the Cursor rewrite produces exactly two
instructional blocks: the first lists `a/b.md` then `c/d.md` in order,
the `text` line is unchanged, and the second block lists only `e.md`. -/
theorem c2_file_inclusion_runs :
    cursorTransformFileReferences "@a/b.md\n@c/d.md\ntext\n@e.md".data =
      ("**Read these files before proceeding:**\n- a/b.md\n- c/d.md\n" ++
        "text\n**Read these files before proceeding:**\n- e.md").data := by
  decide

/-- C3 (counterexample): the claim that an embedded-in-prose sigil
occurrence is never rewritten is false.  In
`see @a.md here\n@a.md` the standalone run `@a.md` is collected, but the
block replacement rewrites the *first* textual occurrence of `@a.md`,
which is the one embedded in the prose line: the output no longer contains
the prose line `see @a.md here` (third conjunct), although the input did
(second conjunct). -/
theorem c3_counterexample :
    cursorTransformFileReferences "see @a.md here\n@a.md".data =
      "see **Read these files before proceeding:**\n- a.md here\n@a.md".data ∧
    splitFirst "see @a.md here".data "see @a.md here\n@a.md".data ≠ none ∧
    splitFirst "see @a.md here".data
      (cursorTransformFileReferences "see @a.md here\n@a.md".data) = none := by
  refine ⟨by decide, by decide, by decide⟩

/-- C3 (amended): a sigil occurrence embedded in a prose line is never
rewritten *provided the body contains no standalone sigil-only line at
all* — then the rewrite is the identity.  (When a standalone run does
exist, its replacement targets the first textual occurrence of the run's
text in the document, which may be an embedded occurrence appearing
earlier, as the counterexample shows.) -/
theorem c3_amended (content : Str) (h : hasFileRef content = false) :
    cursorTransformFileReferences content = content := by
  unfold cursorTransformFileReferences
  rw [h]
  simp

/-- Witness for C3 (amended): a body whose only sigil occurrence is
embedded in prose is returned unchanged. -/
theorem c3_amended_witness :
    cursorTransformFileReferences "see @a.md here\ntext".data =
      "see @a.md here\ntext".data :=
  c3_amended "see @a.md here\ntext".data (by decide)

/-! ### Claim C5: the Parse contract -/

theorem take_append_le {n : Nat} : ∀ (X : Str) (Y : Str), n ≤ X.length →
    (X ++ Y).take n = X.take n := by
  induction n with
  | zero => intro X Y _; simp
  | succ m ih =>
    intro X Y hn
    cases X with
    | nil => simp at hn
    | cons a t =>
      rw [List.cons_append]
      rw [List.take_succ_cons, List.take_succ_cons]
      rw [ih t Y (by simpa using hn)]

theorem isPrefixOf_left_of_le {p X Y : Str} (h : p.isPrefixOf (X ++ Y) = true)
    (hlen : p.length ≤ X.length) : p.isPrefixOf X = true := by
  obtain ⟨r, hr⟩ := (isPrefixOf_iff_append _ _).1 h
  have htake := congrArg (List.take p.length) hr
  rw [take_append_le X Y hlen, List.take_left' rfl] at htake
  apply (isPrefixOf_iff_append _ _).2
  refine ⟨X.drop p.length, ?_⟩
  conv_lhs => rw [← List.take_append_drop p.length X]
  rw [htake]

theorem splitFirst_nil_pat (s : Str) : splitFirst ([] : Str) s ≠ none := by
  cases s with
  | nil => simp [splitFirst]
  | cons c t => simp [splitFirst, List.isPrefixOf]

theorem splitFirst_append_ne_none {pat b : Str} :
    ∀ a : Str, splitFirst pat (a ++ pat ++ b) ≠ none := by
  intro a
  induction a with
  | nil =>
    rw [List.nil_append]
    by_cases hp : pat = []
    · rw [hp, List.nil_append]
      exact splitFirst_nil_pat b
    · rw [splitFirst_self b hp]
      simp
  | cons c a' ih =>
    rw [show (c :: a') ++ pat ++ b = c :: (a' ++ pat ++ b) by simp]
    simp only [splitFirst]
    by_cases hp : pat.isPrefixOf (c :: (a' ++ pat ++ b)) = true
    · rw [if_pos hp]; simp
    · rw [if_neg hp]
      intro hcontra
      rw [Option.map_eq_none'] at hcontra
      exact ih hcontra

/-- C5 (counterexample): the document `---\n---\nbody` begins with the
header marker line and its second line is exactly the closing marker
`---`, yet `parseFrontmatter` reports frontmatter as absent and returns
the entire input as the body: the regex demands a newline both before and
after the closing marker (`\n---\n`). -/
theorem c5_counterexample :
    (splitOnChar '\n' "---\n---\nbody".data).head? = some "---".data ∧
    "---".data ∈ (splitOnChar '\n' "---\n---\nbody".data).tail ∧
    parseFrontmatter "---\n---\nbody".data =
      (none, "---\n---\nbody".data, none) := by
  refine ⟨by decide, by decide, by decide⟩

/-- C5 (amended): the Parse contract as the code implements it.  If the
text begins with `---\n` and the five-character closing pattern `\n---\n`
occurs later (with no earlier occurrence inside the header, expressed as:
no occurrence inside `header ++ "\n---"`), then everything between the
markers is the header and everything after the closing marker is the body.
Otherwise — the text does not begin with the marker, or the closing
pattern never occurs after it — frontmatter is absent and the entire input
is the body, and this is not an error. -/
theorem c5_parse_contract :
    (∀ h b : Str,
      splitFirst fmClose (h ++ ['\n', '-', '-', '-']) = none →
      parseFrontmatter (fmOpen ++ h ++ fmClose ++ b) =
        (some (parseYamlLines (splitOnChar '\n' h)), b, some h)) ∧
    (∀ text : Str, fmOpen.isPrefixOf text = false →
      parseFrontmatter text = (none, text, none)) ∧
    (∀ text : Str, (∀ a b' : Str, text.drop fmOpen.length ≠ a ++ fmClose ++ b') →
      parseFrontmatter text = (none, text, none)) := by
  refine ⟨?_, ?_, ?_⟩
  · intro h b hnone
    have hno : ∀ a₁ a₂ : Str, h = a₁ ++ a₂ → a₂ ≠ [] →
        fmClose.isPrefixOf (a₂ ++ fmClose ++ b) = false := by
      intro a₁ a₂ hsplit hne
      cases hb : fmClose.isPrefixOf (a₂ ++ fmClose ++ b)
      · rfl
      · exfalso
        have harg : a₂ ++ fmClose ++ b =
            (a₂ ++ ['\n', '-', '-', '-']) ++ ('\n' :: b) := by
          simp [fmClose]
        rw [harg] at hb
        have hlen : fmClose.length ≤ (a₂ ++ ['\n', '-', '-', '-']).length := by
          cases a₂ with
          | nil => exact absurd rfl hne
          | cons x y =>
            simp only [fmClose, List.length_append, List.length_cons]
            omega
        have hpre2 : fmClose.isPrefixOf (a₂ ++ ['\n', '-', '-', '-']) = true :=
          isPrefixOf_left_of_le hb hlen
        obtain ⟨r2, hr2⟩ := (isPrefixOf_iff_append _ _).1 hpre2
        have : h ++ ['\n', '-', '-', '-'] = a₁ ++ fmClose ++ r2 := by
          rw [hsplit, List.append_assoc, hr2]
          simp
        exact splitFirst_append_ne_none a₁ (by rw [← this]; exact hnone)
    unfold parseFrontmatter parseSplit
    rw [show fmOpen ++ h ++ fmClose ++ b = fmOpen ++ (h ++ fmClose ++ b) by simp]
    rw [if_pos (isPrefixOf_append fmOpen _)]
    rw [List.drop_left' rfl]
    rw [splitFirst_earliest (by simp [fmClose]) h hno]
  · intro text hpre
    unfold parseFrontmatter parseSplit
    rw [hpre]
    simp
  · intro text hno
    unfold parseFrontmatter parseSplit
    by_cases hpre : fmOpen.isPrefixOf text = true
    · rw [if_pos hpre]
      rw [splitFirst_none (fun a b' hab => hno a b' hab)]
    · rw [if_neg hpre]

/-- Witness for C5 (amended) at a concrete document with header `a: b`
and body `body`, and at a concrete marker-less document. -/
theorem c5_parse_contract_witness :
    parseFrontmatter (fmOpen ++ "a: b".data ++ fmClose ++ "body".data) =
      (some (parseYamlLines (splitOnChar '\n' "a: b".data)), "body".data,
        some "a: b".data) ∧
    parseFrontmatter "plain text".data = (none, "plain text".data, none) :=
  ⟨c5_parse_contract.1 "a: b".data "body".data (by decide),
    c5_parse_contract.2.1 "plain text".data (by decide)⟩

/-! ### Claim C4: the command-reference rewrite -/

theorem tcrGo_nil (sep : Str) : ∀ f, tcrGo sep f [] = [] := by
  intro f
  cases f with
  | zero => rfl
  | succ f' => rfl

theorem tcrGo_fuel {sep : Str} :
    ∀ (f : Nat) (s : Str) (g : Nat), s.length ≤ f → s.length ≤ g →
      tcrGo sep f s = tcrGo sep g s := by
  intro f
  induction f with
  | zero =>
    intro s g hf _
    rw [List.length_eq_zero.1 (Nat.le_zero.1 hf), tcrGo_nil, tcrGo_nil]
  | succ f' ih =>
    intro s g hf hg
    cases s with
    | nil => rw [tcrGo_nil, tcrGo_nil]
    | cons c t =>
      cases g with
      | zero => simp at hg
      | succ g' =>
        have htf : t.length ≤ f' := by simpa using hf
        have htg : t.length ≤ g' := by simpa using hg
        show tcrGo sep (f' + 1) (c :: t) = tcrGo sep (g' + 1) (c :: t)
        simp only [tcrGo]
        by_cases hp : (['/', 'g', 's', 'd', ':'] : Str).isPrefixOf (c :: t) = true
        · rw [if_pos hp, if_pos hp]
          by_cases hname : ((t.drop 4).takeWhile isLowerHyphen).isEmpty = true
          · rw [if_pos hname, if_pos hname, ih t g' htf htg]
          · rw [if_neg hname, if_neg hname]
            have hlf : ((t.drop 4).drop ((t.drop 4).takeWhile isLowerHyphen).length).length ≤ f' := by
              simp only [List.length_drop]
              omega
            have hlg : ((t.drop 4).drop ((t.drop 4).takeWhile isLowerHyphen).length).length ≤ g' := by
              simp only [List.length_drop]
              omega
            rw [ih _ g' hlf hlg]
        · rw [if_neg hp, if_neg hp, ih t g' htf htg]

theorem tcrGo_no_match {sep : Str} :
    ∀ (f : Nat) (s : Str), s.length ≤ f → hasCmdRef s = false →
      tcrGo sep f s = s := by
  intro f
  induction f with
  | zero =>
    intro s hf _
    rw [List.length_eq_zero.1 (Nat.le_zero.1 hf), tcrGo_nil]
  | succ f' ih =>
    intro s hf hno
    cases s with
    | nil => rw [tcrGo_nil]
    | cons c t =>
      have hno' := hno
      simp only [hasCmdRef, Bool.or_eq_false_iff] at hno'
      obtain ⟨hhead, htail⟩ := hno'
      have htf : t.length ≤ f' := by simpa using hf
      show tcrGo sep (f' + 1) (c :: t) = c :: t
      simp only [tcrGo]
      by_cases hp : (['/', 'g', 's', 'd', ':'] : Str).isPrefixOf (c :: t) = true
      · have hname : ((t.drop 4).takeWhile isLowerHyphen).isEmpty = true := by
          rcases Bool.and_eq_false_iff.1 hhead with h | h
          · rw [hp] at h; cases h
          · simpa using h
        rw [if_pos hp, if_pos hname, ih t htf htail]
      · rw [if_neg hp, ih t htf htail]

theorem tcrGo_step {sep n b : Str}
    (hn : ∀ c ∈ n, isLowerHyphen c = true) (hne : n ≠ [])
    (hb : ∀ c, b.head? = some c → isLowerHyphen c = false) :
    ∀ (a : Str) (f : Nat),
      (a ++ ['/', 'g', 's', 'd', ':'] ++ n ++ b).length ≤ f →
      hasCmdRef a = false →
      tcrGo sep f (a ++ ['/', 'g', 's', 'd', ':'] ++ n ++ b) =
        a ++ ['/', 'g', 's', 'd'] ++ sep ++ n ++ tcrGo sep b.length b := by
  have hname0 : (n ++ b).takeWhile isLowerHyphen = n := by
    rw [List.takeWhile_append_of_pos hn]
    cases hbb : b with
    | nil => simp
    | cons x b' =>
      rw [List.takeWhile_cons_of_neg (by simp [hb x (by rw [hbb]; rfl)])]
      simp
  intro a
  induction a with
  | nil =>
    intro f hf _
    cases f with
    | zero => simp at hf
    | succ f' =>
      have hbf : b.length ≤ f' := by
        simp only [List.nil_append, List.length_append, List.length_cons] at hf
        omega
      show tcrGo sep (f' + 1) ('/' :: ('g' :: 's' :: 'd' :: ':' :: (n ++ b))) =
        [] ++ ['/', 'g', 's', 'd'] ++ sep ++ n ++ tcrGo sep b.length b
      simp only [tcrGo]
      rw [if_pos (show (['/', 'g', 's', 'd', ':'] : Str).isPrefixOf
        ('/' :: ('g' :: 's' :: 'd' :: ':' :: (n ++ b))) = true from
        isPrefixOf_append ['/', 'g', 's', 'd', ':'] (n ++ b))]
      rw [show (('g' :: 's' :: 'd' :: ':' :: (n ++ b)).drop 4) = n ++ b from rfl]
      rw [hname0]
      rw [if_neg (by simp [hne])]
      rw [List.drop_left]
      rw [tcrGo_fuel f' b b.length hbf (Nat.le_refl _)]
      simp
  | cons c a' ih =>
    intro f hf hno
    have hno' := hno
    simp only [hasCmdRef, Bool.or_eq_false_iff] at hno'
    obtain ⟨hhead, htail⟩ := hno'
    cases f with
    | zero => simp at hf
    | succ f' =>
      have hfa : (a' ++ ['/', 'g', 's', 'd', ':'] ++ n ++ b).length ≤ f' := by
        simp only [List.cons_append, List.length_cons, List.length_append] at hf ⊢
        omega
      show tcrGo sep (f' + 1) (c :: (a' ++ ['/', 'g', 's', 'd', ':'] ++ n ++ b)) =
        (c :: a') ++ ['/', 'g', 's', 'd'] ++ sep ++ n ++ tcrGo sep b.length b
      simp only [tcrGo]
      by_cases hp : (['/', 'g', 's', 'd', ':'] : Str).isPrefixOf
          (c :: (a' ++ ['/', 'g', 's', 'd', ':'] ++ n ++ b)) = true
      · rcases a' with _ | ⟨d1, _ | ⟨d2, _ | ⟨d3, _ | ⟨d4, a5⟩⟩⟩⟩
        · exfalso
          simp [List.isPrefixOf] at hp
        · exfalso
          simp [List.isPrefixOf] at hp
        · exfalso
          simp [List.isPrefixOf] at hp
        · exfalso
          simp [List.isPrefixOf] at hp
        · simp only [List.cons_append] at hp hfa ih ⊢
          have hp2 := hp
          simp only [List.isPrefixOf, Bool.and_eq_true, beq_iff_eq] at hp2
          obtain ⟨hc, hd1, hd2, hd3, hd4, -⟩ := hp2
          have hhA : (['/', 'g', 's', 'd', ':'] : Str).isPrefixOf
              (c :: d1 :: d2 :: d3 :: d4 :: a5) = true := by
            simp only [List.isPrefixOf, Bool.and_eq_true, beq_iff_eq]
            exact ⟨hc, hd1, hd2, hd3, hd4, trivial⟩
          have hnameA : (a5.takeWhile isLowerHyphen).isEmpty = true := by
            rcases Bool.and_eq_false_iff.1 hhead with h | h
            · rw [hhA] at h; cases h
            · simpa using h
          have hPtake : ∀ z : Str,
              ((['/', 'g', 's', 'd', ':'] ++ z : Str).takeWhile isLowerHyphen) = [] := by
            intro z
            rw [show (['/', 'g', 's', 'd', ':'] ++ z : Str) =
              '/' :: (['g', 's', 'd', ':'] ++ z) from rfl]
            rw [List.takeWhile_cons_of_neg (by decide)]
          have hgname : (((d1 :: d2 :: d3 :: d4 ::
              (a5 ++ ['/', 'g', 's', 'd', ':'] ++ n ++ b) : Str).drop 4).takeWhile
                isLowerHyphen).isEmpty = true := by
            show ((a5 ++ ['/', 'g', 's', 'd', ':'] ++ n ++ b).takeWhile
              isLowerHyphen).isEmpty = true
            cases a5 with
            | nil =>
              rw [List.nil_append, List.append_assoc]
              rw [hPtake (n ++ b)]
              rfl
            | cons x a6 =>
              have hx : isLowerHyphen x = false := by
                cases hxx : isLowerHyphen x
                · rfl
                · exfalso
                  rw [List.takeWhile_cons_of_pos hxx] at hnameA
                  simp at hnameA
              rw [show ((x :: a6 : Str) ++ ['/', 'g', 's', 'd', ':'] ++ n ++ b) =
                x :: (a6 ++ ['/', 'g', 's', 'd', ':'] ++ n ++ b) by simp]
              rw [List.takeWhile_cons_of_neg (by simp [hx])]
              rfl
          rw [if_pos hp, if_pos hgname]
          rw [ih f' hfa htail]
      · rw [if_neg hp]
        rw [ih f' hfa htail]
        rfl

/-- C4: Command-reference rewrite.  With the platform separator `sep`:
(1) the concrete body `/gsd:plan and /gsd:help` with the Cursor separator
`/` becomes `/gsd/plan and /gsd/help`; (2) a body with no occurrence of
`/gsd:` followed by a `[a-z-]+` name is left byte-for-byte unchanged
(unrelated slashes untouched); (3) every occurrence — the earliest match
of `/gsd:` plus a maximal `[a-z-]+` name — has its separator replaced by
the configured one, with the namespace and name intact and the rest of the
text unchanged. -/
theorem c4_command_reference_rewrite :
    transformCommandReferences cursorSeparator "/gsd:plan and /gsd:help".data =
      "/gsd/plan and /gsd/help".data ∧
    (∀ s : Str, hasCmdRef s = false →
      transformCommandReferences cursorSeparator s = s) ∧
    (∀ a n b : Str, hasCmdRef a = false → n ≠ [] →
      (∀ c ∈ n, isLowerHyphen c = true) →
      (∀ c, b.head? = some c → isLowerHyphen c = false) →
      transformCommandReferences cursorSeparator
          (a ++ ['/', 'g', 's', 'd', ':'] ++ n ++ b) =
        a ++ ['/', 'g', 's', 'd'] ++ cursorSeparator ++ n ++
          transformCommandReferences cursorSeparator b) := by
  refine ⟨by decide, ?_, ?_⟩
  · intro s h
    exact tcrGo_no_match s.length s (Nat.le_refl _) h
  · intro a n b ha hne hn hb
    unfold transformCommandReferences
    exact tcrGo_step hn hne hb a _ (Nat.le_refl _) ha

/-- Witness for C4 at concrete inputs. -/
theorem c4_command_reference_rewrite_witness :
    transformCommandReferences cursorSeparator
        ("x ".data ++ ['/', 'g', 's', 'd', ':'] ++ "plan".data ++ " y".data) =
      "x ".data ++ ['/', 'g', 's', 'd'] ++ cursorSeparator ++ "plan".data ++
        transformCommandReferences cursorSeparator " y".data ∧
    transformCommandReferences cursorSeparator "no refs /here".data =
      "no refs /here".data :=
  ⟨c4_command_reference_rewrite.2.2 "x ".data "plan".data " y".data
      (by decide) (by decide) (by decide)
      (by intro c hc; cases hc; decide),
    c4_command_reference_rewrite.2.1 "no refs /here".data (by decide)⟩

/-! ### Claims C6, C7, C10: the Cursor frontmatter transform -/

theorem containsStr_iff (l : List Str) (x : Str) : l.contains x = true ↔ x ∈ l := by
  simp [List.contains]

theorem cursorNameStep_some {fm1 : FM}
    (hname : ∀ xs, lookupFM fm1 ("name".data) = some (FMValue.list xs) → [':'] ∉ xs) :
    ∃ fm2, cursorNameStep fm1 = some fm2 ∧
      lookupFM fm2 ("argument-hint".data) = lookupFM fm1 ("argument-hint".data) ∧
      lookupFM fm2 ("description".data) = lookupFM fm1 ("description".data) ∧
      lookupFM fm2 ("allowed-tools".data) = lookupFM fm1 ("allowed-tools".data) ∧
      ((keysFM fm1).Nodup → (keysFM fm2).Nodup) := by
  unfold cursorNameStep
  cases hl : lookupFM fm1 ("name".data) with
  | none => exact ⟨fm1, rfl, rfl, rfl, rfl, id⟩
  | some v =>
    cases v with
    | str s =>
      by_cases hcond : (!s.isEmpty && s.contains ':') = true
      · refine ⟨setFM fm1 ("name".data)
          (FMValue.str (s.map (fun c => if c = ':' then '/' else c))),
          ?_, ?_, ?_, ?_, fun hn => nodup_setFM _ hn⟩
        · show (if (!s.isEmpty && s.contains ':') = true then
              some (setFM fm1 ("name".data)
                (FMValue.str (s.map (fun c => if c = ':' then '/' else c))))
            else some fm1) = _
          rw [if_pos hcond]
        · exact lookupFM_setFM_other _ (by decide)
        · exact lookupFM_setFM_other _ (by decide)
        · exact lookupFM_setFM_other _ (by decide)
      · refine ⟨fm1, ?_, rfl, rfl, rfl, id⟩
        show (if (!s.isEmpty && s.contains ':') = true then
            some (setFM fm1 ("name".data)
              (FMValue.str (s.map (fun c => if c = ':' then '/' else c))))
          else some fm1) = _
        rw [if_neg hcond]
    | list xs =>
      have hmem : ([':'] : Str) ∉ xs := hname xs hl
      have hxs : xs.contains ([':'] : Str) = false := by
        cases hc : xs.contains ([':'] : Str)
        · rfl
        · exact absurd ((containsStr_iff xs [':']).1 hc) hmem
      refine ⟨fm1, ?_, rfl, rfl, rfl, id⟩
      show (if xs.contains ([':'] : Str) = true then none else some fm1) = _
      rw [if_neg (by rw [hxs]; simp)]

theorem cursorHintStep_merge {fm2 : FM} {h : Str}
    (hhint : lookupFM fm2 ("argument-hint".data) = some (FMValue.str h))
    (hne : h ≠ []) :
    cursorHintStep fm2 =
      deleteFM (setFM fm2 ("description".data)
        (FMValue.str (match lookupFM fm2 ("description".data) with
          | some dv =>
            if truthyFM dv then toStrFM dv ++ (" Arguments: ".data) ++ h
            else ("Arguments: ".data) ++ h
          | none => ("Arguments: ".data) ++ h)))
        ("argument-hint".data) := by
  unfold cursorHintStep
  rw [hhint]
  show (if truthyFM (FMValue.str h) = true then
      deleteFM (setFM fm2 ("description".data) (FMValue.str
        (match lookupFM fm2 ("description".data) with
          | some dv =>
            if truthyFM dv = true then toStrFM dv ++ (" Arguments: ".data) ++ h
            else ("Arguments: ".data) ++ h
          | none => ("Arguments: ".data) ++ h)))
        ("argument-hint".data)
    else fm2) = _
  rw [if_pos (show truthyFM (FMValue.str h) = true by
    simp [truthyFM, List.isEmpty_iff, hne])]

/-- C6: Argument-hint merge.  For any parsed frontmatter mapping with
distinct keys, a non-empty scalar `argument-hint` value `h`, and a `name`
field that does not make the transform throw, the Cursor frontmatter
mutation succeeds, the result has no `argument-hint` field, and its
`description` is `d ++ " Arguments: " ++ h` when a non-empty scalar
description `d` was present and `"Arguments: " ++ h` when `description`
was absent. -/
theorem c6_argument_hint_merge (fm : FM) (h : Str)
    (hnodup : (keysFM fm).Nodup)
    (hhint : lookupFM fm ("argument-hint".data) = some (FMValue.str h))
    (hne : h ≠ [])
    (hname : ∀ xs, lookupFM fm ("name".data) = some (FMValue.list xs) → [':'] ∉ xs) :
    ∃ fm', cursorFmMutate fm = some fm' ∧
      lookupFM fm' ("argument-hint".data) = none ∧
      (lookupFM fm ("description".data) = none →
        lookupFM fm' ("description".data) =
          some (FMValue.str (("Arguments: ".data) ++ h))) ∧
      (∀ d : Str, d ≠ [] →
        lookupFM fm ("description".data) = some (FMValue.str d) →
        lookupFM fm' ("description".data) =
          some (FMValue.str (d ++ (" Arguments: ".data) ++ h))) := by
  have hAT_hint : ("allowed-tools".data : Str) ≠ "argument-hint".data := by decide
  have hAT_desc : ("allowed-tools".data : Str) ≠ "description".data := by decide
  have hAT_name : ("allowed-tools".data : Str) ≠ "name".data := by decide
  have hH_desc : ("argument-hint".data : Str) ≠ "description".data := by decide
  have h1hint : lookupFM (deleteFM fm ("allowed-tools".data)) ("argument-hint".data) =
      some (FMValue.str h) := by
    rw [lookupFM_deleteFM_other hAT_hint]; exact hhint
  have h1desc : lookupFM (deleteFM fm ("allowed-tools".data)) ("description".data) =
      lookupFM fm ("description".data) := lookupFM_deleteFM_other hAT_desc
  have h1name : ∀ xs, lookupFM (deleteFM fm ("allowed-tools".data)) ("name".data) =
      some (FMValue.list xs) → [':'] ∉ xs := by
    intro xs hxs
    rw [lookupFM_deleteFM_other hAT_name] at hxs
    exact hname xs hxs
  have h1nodup := @nodup_deleteFM fm ("allowed-tools".data) hnodup
  obtain ⟨fm2, hstep2, h2hint, h2desc, _, h2nodup⟩ := cursorNameStep_some h1name
  have h2hint' : lookupFM fm2 ("argument-hint".data) = some (FMValue.str h) := by
    rw [h2hint]; exact h1hint
  have hmerge := cursorHintStep_merge h2hint' hne
  refine ⟨cursorHintStep fm2, ?_, ?_, ?_, ?_⟩
  · unfold cursorFmMutate
    rw [hstep2]
    rfl
  · rw [hmerge]
    exact lookupFM_deleteFM_same _ (nodup_setFM _ (h2nodup h1nodup))
  · intro hdnone
    rw [hmerge, lookupFM_deleteFM_other hH_desc, lookupFM_setFM_same]
    rw [show lookupFM fm2 ("description".data) = none by rw [h2desc, h1desc]; exact hdnone]
  · intro d hd hdsome
    rw [hmerge, lookupFM_deleteFM_other hH_desc, lookupFM_setFM_same]
    rw [show lookupFM fm2 ("description".data) = some (FMValue.str d) by
      rw [h2desc, h1desc]; exact hdsome]
    have htd : truthyFM (FMValue.str d) = true := by
      simp [truthyFM, List.isEmpty_iff, hd]
    show some (FMValue.str (if truthyFM (FMValue.str d) = true then
        toStrFM (FMValue.str d) ++ (" Arguments: ".data) ++ h
      else ("Arguments: ".data) ++ h)) = _
    rw [if_pos htd]
    rfl

/-- Witness for C6 at the concrete mapping of the spec's example. -/
theorem c6_argument_hint_merge_witness :
    ∃ fm', cursorFmMutate
        [("description".data, FMValue.str "Builds X".data),
         ("argument-hint".data, FMValue.str "<name>".data)] = some fm' ∧
      lookupFM fm' ("argument-hint".data) = none ∧
      (lookupFM [("description".data, FMValue.str "Builds X".data),
         ("argument-hint".data, FMValue.str "<name>".data)] ("description".data) = none →
        lookupFM fm' ("description".data) =
          some (FMValue.str (("Arguments: ".data) ++ "<name>".data))) ∧
      (∀ d : Str, d ≠ [] →
        lookupFM [("description".data, FMValue.str "Builds X".data),
          ("argument-hint".data, FMValue.str "<name>".data)] ("description".data) =
            some (FMValue.str d) →
        lookupFM fm' ("description".data) =
          some (FMValue.str (d ++ (" Arguments: ".data) ++ "<name>".data))) :=
  c6_argument_hint_merge
    [("description".data, FMValue.str "Builds X".data),
     ("argument-hint".data, FMValue.str "<name>".data)]
    "<name>".data (by decide) (by decide) (by decide)
    (by intro xs hxs; simp [lookupFM] at hxs)

/-! ### Claim C7: idempotence of the frontmatter transform -/

theorem lookupFM_mem {fm : FM} {k : Str} {v : FMValue}
    (h : lookupFM fm k = some v) : (k, v) ∈ fm := by
  induction fm with
  | nil => cases h
  | cons p t ih =>
    obtain ⟨k', v'⟩ := p
    simp only [lookupFM] at h
    by_cases hk : k' = k
    · rw [if_pos hk] at h
      injection h with h
      rw [← hk, ← h]
      exact List.mem_cons_self _ _
    · rw [if_neg hk] at h
      exact List.mem_cons_of_mem _ (ih h)

theorem WFval_of_lookupFM {fm : FM} {k : Str} {v : FMValue}
    (hWF : WFfm fm) (h : lookupFM fm k = some v) : WFval v :=
  (hWF.2 _ (lookupFM_mem h)).2

theorem lookupFM_isSome_of_mem {fm : FM} {k : Str} (h : k ∈ keysFM fm) :
    ∃ v, lookupFM fm k = some v := by
  induction fm with
  | nil => simp [keysFM] at h
  | cons p t ih =>
    obtain ⟨k', v'⟩ := p
    have h' : k = k' ∨ k ∈ keysFM t := by simpa [keysFM] using h
    by_cases hk : k' = k
    · exact ⟨v', by simp [lookupFM, hk]⟩
    · rcases h' with h1 | h1
      · exact absurd h1.symm hk
      · obtain ⟨v, hv⟩ := ih h1
        exact ⟨v, by simp [lookupFM, hk, hv]⟩

theorem not_mem_keysFM {fm : FM} {k : Str} (h : lookupFM fm k = none) :
    k ∉ keysFM fm := by
  intro hm
  obtain ⟨v, hv⟩ := lookupFM_isSome_of_mem hm
  rw [h] at hv
  cases hv

theorem keysFM_setFM_subset {fm : FM} {k k' : Str} {v : FMValue}
    (h : k' ∈ keysFM (setFM fm k v)) : k' ∈ keysFM fm ∨ k' = k := by
  simp only [keysFM] at h ⊢
  obtain ⟨e, he, hek⟩ := List.mem_map.1 h
  rcases mem_setFM e he with h1 | h1
  · exact Or.inl (hek ▸ List.mem_map_of_mem Prod.fst h1)
  · right
    rw [← hek, h1]

theorem keysFM_deleteFM_subset {fm : FM} {k k' : Str}
    (h : k' ∈ keysFM (deleteFM fm k)) : k' ∈ keysFM fm :=
  List.Sublist.mem h (List.Sublist.map Prod.fst (deleteFM_sublist fm k))

theorem not_mem_keysFM_deleteFM_self {fm : FM} {k : Str}
    (hnd : (keysFM fm).Nodup) : k ∉ keysFM (deleteFM fm k) :=
  not_mem_keysFM (lookupFM_deleteFM_same k hnd)

theorem validKey_name : validKey ("name".data) :=
  ⟨'n', "ame".data, rfl, by decide, by decide⟩

theorem validKey_description : validKey ("description".data) :=
  ⟨'d', "escription".data, rfl, by decide, by decide⟩

theorem colon_not_mem_nameMap (s : Str) :
    (':' : Char) ∉ s.map (fun c => if c = ':' then '/' else c) := by
  intro hm
  obtain ⟨c0, _, hfc⟩ := List.mem_map.1 hm
  by_cases h0 : c0 = ':'
  · rw [if_pos h0] at hfc
    exact absurd hfc (by decide)
  · rw [if_neg h0] at hfc
    exact h0 hfc

theorem WFstr_nameMap {s : Str} (h : WFstr s) :
    WFstr (s.map (fun c => if c = ':' then '/' else c)) := by
  obtain ⟨hne, hh, hl, hnl⟩ := h
  refine ⟨by simpa using hne, ?_, ?_, ?_⟩
  · intro ch hc
    rw [List.head?_map] at hc
    cases hs : s.head? with
    | none => exact absurd (List.head?_eq_none_iff.1 hs) hne
    | some c0 =>
      rw [hs] at hc
      have hc' : (if c0 = ':' then '/' else c0) = ch := by
        have h2 : some (if c0 = ':' then '/' else c0) = some ch := hc
        injection h2
      by_cases h0 : c0 = ':'
      · rw [if_pos h0] at hc'
        rw [← hc']
        decide
      · rw [if_neg h0] at hc'
        rw [← hc']
        exact hh c0 hs
  · intro ch hc
    rw [List.getLast?_map] at hc
    cases hs : s.getLast? with
    | none => exact absurd (List.getLast?_eq_none_iff.1 hs) hne
    | some c0 =>
      rw [hs] at hc
      have hc' : (if c0 = ':' then '/' else c0) = ch := by
        have h2 : some (if c0 = ':' then '/' else c0) = some ch := hc
        injection h2
      by_cases h0 : c0 = ':'
      · rw [if_pos h0] at hc'
        rw [← hc']
        decide
      · rw [if_neg h0] at hc'
        rw [← hc']
        exact hl c0 hs
  · intro hm
    obtain ⟨c0, hc0, hfc⟩ := List.mem_map.1 hm
    by_cases h0 : c0 = ':'
    · rw [if_pos h0] at hfc
      exact absurd hfc (by decide)
    · rw [if_neg h0] at hfc
      exact hnl (hfc ▸ hc0)

theorem WFstr_joinWith_comma {xs : List Str} (hne : xs ≠ [])
    (h : ∀ x ∈ xs, WFstr x) : WFstr (joinWith ',' xs) := by
  induction xs with
  | nil => exact absurd rfl hne
  | cons x t ih =>
    cases t with
    | nil => simpa [joinWith] using h x (by simp)
    | cons y t2 =>
      have hx := h x (by simp)
      have hrec : WFstr (joinWith ',' (y :: t2)) :=
        ih (by simp) (fun z hz => h z (by simp [hz]))
      have hj : joinWith ',' (x :: y :: t2) = x ++ ',' :: joinWith ',' (y :: t2) := rfl
      rw [hj]
      obtain ⟨hxne, hxh, hxl, hxnl⟩ := hx
      obtain ⟨hrne, hrh, hrl, hrnl⟩ := hrec
      refine ⟨by simp, ?_, ?_, ?_⟩
      · intro ch hc
        rw [List.head?_append] at hc
        cases hs : x.head? with
        | none => exact absurd (List.head?_eq_none_iff.1 hs) hxne
        | some c0 =>
          rw [hs] at hc
          have h2 : some c0 = some ch := hc
          injection h2 with h2
          rw [← h2]
          exact hxh c0 hs
      · intro ch hc
        rw [show x ++ ',' :: joinWith ',' (y :: t2) =
          (x ++ [',']) ++ joinWith ',' (y :: t2) by simp] at hc
        rw [List.getLast?_append] at hc
        cases hs : (joinWith ',' (y :: t2)).getLast? with
        | none => exact absurd (List.getLast?_eq_none_iff.1 hs) hrne
        | some c0 =>
          rw [hs] at hc
          have h2 : some c0 = some ch := hc
          injection h2 with h2
          rw [← h2]
          exact hrl c0 hs
      · intro hm
        rcases List.mem_append.1 hm with hm1 | hm1
        · exact hxnl hm1
        · rcases List.mem_cons.1 hm1 with hm2 | hm2
          · exact absurd hm2 (by decide)
          · exact hrnl hm2

theorem WFstr_toStrFM {v : FMValue} (h : WFval v) : WFstr (toStrFM v) := by
  cases v with
  | str s => exact h
  | list xs => exact WFstr_joinWith_comma h.1 h.2

theorem truthyFM_of_WFval {v : FMValue} (h : WFval v) : truthyFM v = true := by
  cases v with
  | str s => simpa [truthyFM, List.isEmpty_iff] using h.1
  | list xs => rfl

theorem WFstr_merge {a c : Str} (ha : WFstr a) (hc : WFstr c) :
    WFstr (a ++ (" Arguments: ".data) ++ c) := by
  obtain ⟨hane, hah, hal, hanl⟩ := ha
  obtain ⟨hcne, hch, hcl, hcnl⟩ := hc
  refine ⟨?_, ?_, ?_, ?_⟩
  · intro h0
    rw [List.append_eq_nil] at h0
    exact hcne h0.2
  · intro ch h
    rw [List.head?_append, List.head?_append] at h
    cases hs : a.head? with
    | none => exact absurd (List.head?_eq_none_iff.1 hs) hane
    | some c0 =>
      rw [hs] at h
      have h2 : some c0 = some ch := h
      injection h2 with h2
      rw [← h2]
      exact hah c0 hs
  · intro ch h
    rw [List.getLast?_append] at h
    cases hs : c.getLast? with
    | none => exact absurd (List.getLast?_eq_none_iff.1 hs) hcne
    | some c0 =>
      rw [hs] at h
      have h2 : some c0 = some ch := h
      injection h2 with h2
      rw [← h2]
      exact hcl c0 hs
  · intro hm
    rcases List.mem_append.1 hm with hm1 | hm1
    · rcases List.mem_append.1 hm1 with hm2 | hm2
      · exact hanl hm2
      · exact absurd hm2 (by decide)
    · exact hcnl hm1

theorem WFstr_args {c : Str} (hc : WFstr c) : WFstr (("Arguments: ".data) ++ c) := by
  obtain ⟨hcne, hch, hcl, hcnl⟩ := hc
  refine ⟨?_, ?_, ?_, ?_⟩
  · intro h0
    rw [List.append_eq_nil] at h0
    exact absurd h0.1 (by decide)
  · intro ch h
    have h2 : some ('A' : Char) = some ch := h
    injection h2 with h2
    rw [← h2]
    decide
  · intro ch h
    rw [List.getLast?_append] at h
    cases hs : c.getLast? with
    | none => exact absurd (List.getLast?_eq_none_iff.1 hs) hcne
    | some c0 =>
      rw [hs] at h
      have h2 : some c0 = some ch := h
      injection h2 with h2
      rw [← h2]
      exact hcl c0 hs
  · intro hm
    rcases List.mem_append.1 hm with hm1 | hm1
    · exact absurd hm1 (by decide)
    · exact hcnl hm1


theorem cursorNameStep_post {fm1 fm2 : FM} (hWF : WFfm fm1)
    (h : cursorNameStep fm1 = some fm2) :
    WFfm fm2 ∧
    (∀ k, k ∈ keysFM fm2 → k ∈ keysFM fm1 ∨ k = "name".data) ∧
    (∀ k, k ≠ "name".data → lookupFM fm2 k = lookupFM fm1 k) ∧
    (∀ s, lookupFM fm2 ("name".data) = some (FMValue.str s) → (':' : Char) ∉ s) ∧
    (∀ xs, lookupFM fm2 ("name".data) = some (FMValue.list xs) → ([':'] : Str) ∉ xs) := by
  unfold cursorNameStep at h
  cases hl : lookupFM fm1 ("name".data) with
  | none =>
    rw [hl] at h
    have h' : some fm1 = some fm2 := h
    injection h' with h'
    subst h'
    refine ⟨hWF, fun k hk => Or.inl hk, fun k _ => rfl, ?_, ?_⟩
    · intro s hs
      rw [hl] at hs
      cases hs
    · intro xs hs
      rw [hl] at hs
      cases hs
  | some v =>
    rw [hl] at h
    cases v with
    | str s =>
      have hsWF : WFstr s := WFval_of_lookupFM hWF hl
      have h' : (if (!s.isEmpty && s.contains ':') = true then
          some (setFM fm1 ("name".data)
            (FMValue.str (s.map (fun c => if c = ':' then '/' else c))))
        else some fm1) = some fm2 := h
      by_cases hcond : (!s.isEmpty && s.contains ':') = true
      · rw [if_pos hcond] at h'
        injection h' with h'
        subst h'
        refine ⟨WFfm_setFM hWF validKey_name (WFstr_nameMap hsWF),
          fun k hk => keysFM_setFM_subset hk,
          fun k hk => lookupFM_setFM_other _ (fun he => hk he.symm), ?_, ?_⟩
        · intro s' hs'
          rw [lookupFM_setFM_same] at hs'
          injection hs' with hs'
          injection hs' with hs'
          rw [← hs']
          exact colon_not_mem_nameMap s
        · intro xs hs'
          rw [lookupFM_setFM_same] at hs'
          cases hs'
      · rw [if_neg hcond] at h'
        injection h' with h'
        subst h'
        have hie : s.isEmpty = false := by
          cases hse : s with
          | nil => exact absurd hse hsWF.1
          | cons a t => rfl
        have hcon : s.contains ':' = false := by
          cases hcc : s.contains ':' with
          | false => rfl
          | true => exact absurd (by rw [hie, hcc]; decide) hcond
        refine ⟨hWF, fun k hk => Or.inl hk, fun k _ => rfl, ?_, ?_⟩
        · intro s' hs'
          rw [hl] at hs'
          injection hs' with hs'
          injection hs' with hs'
          rw [← hs']
          intro hm
          have hc2 := (contains_iff_mem s ':').2 hm
          rw [hcon] at hc2
          exact absurd hc2 (by decide)
        · intro xs hs'
          rw [hl] at hs'
          cases hs'
    | list xs =>
      have h' : (if xs.contains ([':'] : Str) = true then none else some fm1) =
          some fm2 := h
      by_cases hcond : xs.contains ([':'] : Str) = true
      · rw [if_pos hcond] at h'
        cases h'
      · rw [if_neg hcond] at h'
        injection h' with h'
        subst h'
        refine ⟨hWF, fun k hk => Or.inl hk, fun k _ => rfl, ?_, ?_⟩
        · intro s' hs'
          rw [hl] at hs'
          cases hs'
        · intro xs' hs'
          rw [hl] at hs'
          injection hs' with hs'
          injection hs' with hs'
          rw [← hs']
          intro hm
          exact hcond ((containsStr_iff xs [':']).2 hm)

theorem cursorHintStep_post {fm2 : FM} (hWF : WFfm fm2) :
    WFfm (cursorHintStep fm2) ∧
    (∀ k, k ∈ keysFM (cursorHintStep fm2) → k ∈ keysFM fm2 ∨ k = "description".data) ∧
    (∀ k, k ≠ "description".data → k ≠ "argument-hint".data →
      lookupFM (cursorHintStep fm2) k = lookupFM fm2 k) ∧
    ("argument-hint".data : Str) ∉ keysFM (cursorHintStep fm2) := by
  cases hl : lookupFM fm2 ("argument-hint".data) with
  | none =>
    have hres : cursorHintStep fm2 = fm2 := by
      unfold cursorHintStep
      rw [hl]
    rw [hres]
    exact ⟨hWF, fun k hk => Or.inl hk, fun k _ _ => rfl, not_mem_keysFM hl⟩
  | some hv =>
    have hvWF : WFval hv := WFval_of_lookupFM hWF hl
    have htr : truthyFM hv = true := truthyFM_of_WFval hvWF
    have hres : cursorHintStep fm2 =
        deleteFM (setFM fm2 ("description".data)
          (FMValue.str (match lookupFM fm2 ("description".data) with
            | some dv =>
              if truthyFM dv then toStrFM dv ++ (" Arguments: ".data) ++ toStrFM hv
              else ("Arguments: ".data) ++ toStrFM hv
            | none => ("Arguments: ".data) ++ toStrFM hv)))
          ("argument-hint".data) := by
      unfold cursorHintStep
      rw [hl]
      show (if truthyFM hv = true then
          deleteFM (setFM fm2 ("description".data)
            (FMValue.str (match lookupFM fm2 ("description".data) with
              | some dv =>
                if truthyFM dv = true then toStrFM dv ++ (" Arguments: ".data) ++ toStrFM hv
                else ("Arguments: ".data) ++ toStrFM hv
              | none => ("Arguments: ".data) ++ toStrFM hv)))
            ("argument-hint".data)
        else fm2) = _
      rw [if_pos htr]
    have hDWF : WFstr (match lookupFM fm2 ("description".data) with
        | some dv =>
          if truthyFM dv then toStrFM dv ++ (" Arguments: ".data) ++ toStrFM hv
          else ("Arguments: ".data) ++ toStrFM hv
        | none => ("Arguments: ".data) ++ toStrFM hv) := by
      cases hld : lookupFM fm2 ("description".data) with
      | none =>
        exact WFstr_args (WFstr_toStrFM hvWF)
      | some dv =>
        have hdWF : WFval dv := WFval_of_lookupFM hWF hld
        have htrd : truthyFM dv = true := truthyFM_of_WFval hdWF
        show WFstr (if truthyFM dv = true then
            toStrFM dv ++ (" Arguments: ".data) ++ toStrFM hv
          else ("Arguments: ".data) ++ toStrFM hv)
        rw [if_pos htrd]
        exact WFstr_merge (WFstr_toStrFM hdWF) (WFstr_toStrFM hvWF)
    rw [hres]
    refine ⟨WFfm_deleteFM _ (WFfm_setFM hWF validKey_description hDWF), ?_, ?_, ?_⟩
    · intro k hk
      exact keysFM_setFM_subset (keysFM_deleteFM_subset hk)
    · intro k hkd hkh
      rw [lookupFM_deleteFM_other (fun he => hkh he.symm)]
      exact lookupFM_setFM_other _ (fun he => hkd he.symm)
    · exact not_mem_keysFM (lookupFM_deleteFM_same _ (nodup_setFM _ hWF.1))

theorem cursorFmMutate_post {fm fm' : FM} (hWF : WFfm fm)
    (h : cursorFmMutate fm = some fm') : WFfm fm' ∧ MutFixed fm' := by
  unfold cursorFmMutate at h
  have hWF1 : WFfm (deleteFM fm ("allowed-tools".data)) := WFfm_deleteFM _ hWF
  have hat1 : ("allowed-tools".data : Str) ∉ keysFM (deleteFM fm ("allowed-tools".data)) :=
    not_mem_keysFM_deleteFM_self hWF.1
  cases hns : cursorNameStep (deleteFM fm ("allowed-tools".data)) with
  | none =>
    rw [hns] at h
    cases h
  | some fm2 =>
    rw [hns] at h
    have h' : some (cursorHintStep fm2) = some fm' := h
    injection h' with h'
    obtain ⟨hWF2, hkeys2, hlook2, hname2s, hname2l⟩ := cursorNameStep_post hWF1 hns
    obtain ⟨hWF3, hkeys3, hlook3, hhint3⟩ := cursorHintStep_post hWF2
    rw [← h']
    refine ⟨hWF3, ?_, hhint3, ?_, ?_⟩
    · intro hmem
      rcases hkeys3 _ hmem with hk | hk
      · rcases hkeys2 _ hk with hk2 | hk2
        · exact hat1 hk2
        · exact (by decide : ¬ ("allowed-tools".data : Str) = "name".data) hk2
      · exact (by decide : ¬ ("allowed-tools".data : Str) = "description".data) hk
    · intro s hs
      rw [hlook3 _ (by decide) (by decide)] at hs
      exact hname2s s hs
    · intro xs hs
      rw [hlook3 _ (by decide) (by decide)] at hs
      exact hname2l xs hs


theorem cursorNameStep_fixed {fm : FM}
    (h3 : ∀ s, lookupFM fm ("name".data) = some (FMValue.str s) → (':' : Char) ∉ s)
    (h4 : ∀ xs, lookupFM fm ("name".data) = some (FMValue.list xs) → ([':'] : Str) ∉ xs) :
    cursorNameStep fm = some fm := by
  unfold cursorNameStep
  cases hl : lookupFM fm ("name".data) with
  | none => rfl
  | some v =>
    cases v with
    | str s =>
      have hcon : s.contains ':' = false := by
        cases hcc : s.contains ':' with
        | false => rfl
        | true => exact absurd ((contains_iff_mem s ':').1 hcc) (h3 s hl)
      show (if (!s.isEmpty && s.contains ':') = true then
          some (setFM fm ("name".data)
            (FMValue.str (s.map (fun c => if c = ':' then '/' else c))))
        else some fm) = some fm
      rw [if_neg (by rw [hcon]; simp)]
    | list xs =>
      have hcon : xs.contains ([':'] : Str) = false := by
        cases hcc : xs.contains ([':'] : Str) with
        | false => rfl
        | true => exact absurd ((containsStr_iff xs [':']).1 hcc) (h4 xs hl)
      show (if xs.contains ([':'] : Str) = true then none else some fm) = some fm
      rw [if_neg (by rw [hcon]; simp)]

theorem cursorHintStep_absent {fm : FM}
    (h : lookupFM fm ("argument-hint".data) = none) : cursorHintStep fm = fm := by
  unfold cursorHintStep
  rw [h]

theorem cursorFmMutate_fixed {fm : FM} (h : MutFixed fm) :
    cursorFmMutate fm = some fm := by
  obtain ⟨h1, h2, h3, h4⟩ := h
  unfold cursorFmMutate
  rw [deleteFM_not_mem h1, cursorNameStep_fixed h3 h4]
  show some (cursorHintStep fm) = some fm
  rw [cursorHintStep_absent (lookupFM_eq_none h2)]

theorem mem_of_mem_splitOnChar {c : Char} {s : Str} :
    ∀ l ∈ splitOnChar c s, ∀ x ∈ l, x ∈ s := by
  induction s with
  | nil =>
    intro l hl x hx
    simp [splitOnChar] at hl
    rw [hl] at hx
    cases hx
  | cons a t ih =>
    intro l hl x hx
    simp only [splitOnChar] at hl
    cases hsp : splitOnChar c t with
    | nil => exact absurd hsp (splitOnChar_ne_nil c t)
    | cons h0 hs =>
      rw [hsp] at hl
      have hl' : l ∈ (if a = c then [] :: h0 :: hs else (a :: h0) :: hs) := hl
      by_cases hac : a = c
      · rw [if_pos hac] at hl'
        rcases List.mem_cons.1 hl' with h1 | h1
        · rw [h1] at hx
          cases hx
        · exact List.mem_cons_of_mem _ (ih l (by rw [hsp]; exact h1) x hx)
      · rw [if_neg hac] at hl'
        rcases List.mem_cons.1 hl' with h1 | h1
        · rw [h1] at hx
          rcases List.mem_cons.1 hx with h2 | h2
          · rw [h2]
            exact List.mem_cons_self _ _
          · exact List.mem_cons_of_mem _ (ih h0 (by rw [hsp]; simp) x h2)
        · exact List.mem_cons_of_mem _
            (ih l (by rw [hsp]; exact List.mem_cons_of_mem _ h1) x hx)

theorem mem_joinWith {c : Char} {xs : List Str} {x : Char}
    (h : x ∈ joinWith c xs) : x = c ∨ ∃ y ∈ xs, x ∈ y := by
  induction xs with
  | nil => cases h
  | cons y t ih =>
    cases t with
    | nil => exact Or.inr ⟨y, by simp, h⟩
    | cons z t2 =>
      have h' : x ∈ y ++ c :: joinWith c (z :: t2) := h
      rcases List.mem_append.1 h' with h1 | h1
      · exact Or.inr ⟨y, by simp, h1⟩
      · rcases List.mem_cons.1 h1 with h2 | h2
        · exact Or.inl h2
        · rcases ih h2 with h3 | h3
          · exact Or.inl h3
          · obtain ⟨w, hw, hxw⟩ := h3
            exact Or.inr ⟨w, by simp [hw], hxw⟩

theorem LTfree_toStrFM {v : FMValue} (h : LTfreeVal v) :
    ∀ x ∈ toStrFM v, isLineTerm x = false := by
  cases v with
  | str s => exact h
  | list xs =>
    intro x hx
    rcases mem_joinWith hx with h1 | h1
    · rw [h1]
      decide
    · obtain ⟨y, hy, hxy⟩ := h1
      exact h y hy x hxy

theorem LTfreeFM_setFM {fm : FM} {k : Str} {v : FMValue}
    (h : LTfreeFM fm) (hv : LTfreeVal v) : LTfreeFM (setFM fm k v) := by
  intro e he
  rcases mem_setFM e he with h1 | h1
  · exact h e h1
  · rw [h1]
    exact hv

theorem LTfreeFM_deleteFM {fm : FM} (k : Str) (h : LTfreeFM fm) :
    LTfreeFM (deleteFM fm k) := fun e he => h e (mem_deleteFM he)

theorem LTfreeVal_lookupFM {fm : FM} {k : Str} {v : FMValue}
    (h : LTfreeFM fm) (hl : lookupFM fm k = some v) : LTfreeVal v :=
  h _ (lookupFM_mem hl)

theorem LTfreeFM_kvStep {st : YState} {line : Str} (h : LTfreeFM st.fm) :
    LTfreeFM (kvStep st line).fm := by
  unfold kvStep
  cases hkv : kvMatch line with
  | none => exact h
  | some p =>
    obtain ⟨k, rest⟩ := p
    obtain ⟨-, -, hrest⟩ := kvMatch_some hkv
    by_cases hv : trim rest = []
    · show LTfreeFM (if trim rest = [] then YState.mk st.fm (some k) false
        else YState.mk (setFM st.fm k (FMValue.str (trim rest))) (some k) false).fm
      rw [if_pos hv]
      exact h
    · show LTfreeFM (if trim rest = [] then YState.mk st.fm (some k) false
        else YState.mk (setFM st.fm k (FMValue.str (trim rest))) (some k) false).fm
      rw [if_neg hv]
      apply LTfreeFM_setFM h
      intro x hx
      exact hrest x (trim_mem hx)

theorem LTfreeFM_yamlStep {st : YState} {line : Str} (h : LTfreeFM st.fm)
    (hline : ∀ x ∈ line, isLineTerm x = false) : LTfreeFM (yamlStep st line).fm := by
  unfold yamlStep
  by_cases ht0 : trim line = []
  · rw [if_pos ht0]
    exact h
  · rw [if_neg ht0]
    cases hcur : st.cur with
    | none => exact LTfreeFM_kvStep h
    | some k =>
      change LTfreeFM (if (['-', ' '] : Str).isPrefixOf (trim line) then
          (if st.arr then YState.mk (appendItemFM st.fm k (trim ((trim line).drop 2))) (some k) st.arr
           else YState.mk (setFM st.fm k (FMValue.list [trim ((trim line).drop 2)])) (some k) true)
        else kvStep st line).fm
      have hitem : ∀ x ∈ trim ((trim line).drop 2), isLineTerm x = false := by
        intro x hx
        exact hline x (trim_mem (List.mem_of_mem_drop (trim_mem hx)))
      by_cases hpre : (['-', ' '] : Str).isPrefixOf (trim line) = true
      · rw [if_pos hpre]
        by_cases harr : st.arr = true
        · rw [if_pos harr]
          intro e he
          rcases mem_appendItemFM e he with h1 | h1
          · exact h e h1
          · obtain ⟨xs, hmem, h2⟩ := h1
            rw [h2]
            intro y hy x hx
            rcases List.mem_append.1 hy with hy1 | hy1
            · exact h _ hmem y hy1 x hx
            · rcases List.mem_cons.1 hy1 with hy2 | hy2
              · rw [hy2] at hx
                exact hitem x hx
              · cases hy2
        · rw [if_neg harr]
          apply LTfreeFM_setFM h
          intro y hy x hx
          rcases List.mem_cons.1 hy with hy1 | hy1
          · rw [hy1] at hx
            exact hitem x hx
          · cases hy1
      · rw [if_neg hpre]
        exact LTfreeFM_kvStep h

theorem LTfreeFM_parseYamlLines {lines : List Str}
    (hlines : ∀ l ∈ lines, ∀ x ∈ l, isLineTerm x = false) :
    LTfreeFM (parseYamlLines lines) := by
  unfold parseYamlLines
  have hgen : ∀ (ls : List Str) (st : YState), LTfreeFM st.fm →
      (∀ l ∈ ls, ∀ x ∈ l, isLineTerm x = false) →
      LTfreeFM (ls.foldl yamlStep st).fm := by
    intro ls
    induction ls with
    | nil => intro st h _; exact h
    | cons l t ih =>
      intro st h hls
      rw [List.foldl_cons]
      exact ih _ (LTfreeFM_yamlStep h (hls l (by simp)))
        (fun l2 hl2 => hls l2 (List.mem_cons_of_mem _ hl2))
  exact hgen lines _ (by intro e he; simp at he) hlines

theorem LTfreeFM_nameStep {fm1 fm2 : FM} (h : LTfreeFM fm1)
    (hns : cursorNameStep fm1 = some fm2) : LTfreeFM fm2 := by
  unfold cursorNameStep at hns
  cases hl : lookupFM fm1 ("name".data) with
  | none =>
    rw [hl] at hns
    have h' : some fm1 = some fm2 := hns
    injection h' with h'
    rw [← h']
    exact h
  | some v =>
    rw [hl] at hns
    cases v with
    | str s =>
      have h' : (if (!s.isEmpty && s.contains ':') = true then
          some (setFM fm1 ("name".data)
            (FMValue.str (s.map (fun c => if c = ':' then '/' else c))))
        else some fm1) = some fm2 := hns
      by_cases hcond : (!s.isEmpty && s.contains ':') = true
      · rw [if_pos hcond] at h'
        injection h' with h'
        rw [← h']
        apply LTfreeFM_setFM h
        intro x hx
        obtain ⟨c0, hc0, hfc⟩ := List.mem_map.1 hx
        by_cases h0 : c0 = ':'
        · rw [if_pos h0] at hfc
          rw [← hfc]
          decide
        · rw [if_neg h0] at hfc
          rw [← hfc]
          exact LTfreeVal_lookupFM h hl c0 hc0
      · rw [if_neg hcond] at h'
        injection h' with h'
        rw [← h']
        exact h
    | list xs =>
      have h' : (if xs.contains ([':'] : Str) = true then none else some fm1) =
          some fm2 := hns
      by_cases hcond : xs.contains ([':'] : Str) = true
      · rw [if_pos hcond] at h'
        cases h'
      · rw [if_neg hcond] at h'
        injection h' with h'
        rw [← h']
        exact h

theorem LTfreeFM_hintStep {fm2 : FM} (h : LTfreeFM fm2) :
    LTfreeFM (cursorHintStep fm2) := by
  cases hl : lookupFM fm2 ("argument-hint".data) with
  | none =>
    rw [cursorHintStep_absent hl]
    exact h
  | some hv =>
    have hvLT : ∀ x ∈ toStrFM hv, isLineTerm x = false :=
      LTfree_toStrFM (LTfreeVal_lookupFM h hl)
    unfold cursorHintStep
    rw [hl]
    show LTfreeFM (if truthyFM hv = true then
        deleteFM (setFM fm2 ("description".data)
          (FMValue.str (match lookupFM fm2 ("description".data) with
            | some dv =>
              if truthyFM dv = true then toStrFM dv ++ (" Arguments: ".data) ++ toStrFM hv
              else ("Arguments: ".data) ++ toStrFM hv
            | none => ("Arguments: ".data) ++ toStrFM hv)))
          ("argument-hint".data)
      else fm2)
    by_cases htr : truthyFM hv = true
    · rw [if_pos htr]
      apply LTfreeFM_deleteFM
      apply LTfreeFM_setFM h
      intro x hx
      cases hld : lookupFM fm2 ("description".data) with
      | none =>
        rw [hld] at hx
        have hx' : x ∈ ("Arguments: ".data) ++ toStrFM hv := hx
        rcases List.mem_append.1 hx' with h1 | h1
        · exact (by decide : ∀ y ∈ ("Arguments: ".data : Str),
            isLineTerm y = false) x h1
        · exact hvLT x h1
      | some dv =>
        have hdLT : ∀ y ∈ toStrFM dv, isLineTerm y = false :=
          LTfree_toStrFM (LTfreeVal_lookupFM h hld)
        rw [hld] at hx
        have hx' : x ∈ (if truthyFM dv = true then
            toStrFM dv ++ (" Arguments: ".data) ++ toStrFM hv
          else ("Arguments: ".data) ++ toStrFM hv) := hx
        by_cases htrd : truthyFM dv = true
        · rw [if_pos htrd] at hx'
          rcases List.mem_append.1 hx' with h1 | h1
          · rcases List.mem_append.1 h1 with h2 | h2
            · exact hdLT x h2
            · exact (by decide : ∀ y ∈ ((" Arguments: ".data) : Str),
                isLineTerm y = false) x h2
          · exact hvLT x h1
        · rw [if_neg htrd] at hx'
          rcases List.mem_append.1 hx' with h1 | h1
          · exact (by decide : ∀ y ∈ ("Arguments: ".data : Str),
              isLineTerm y = false) x h1
          · exact hvLT x h1
    · rw [if_neg htr]
      exact h

theorem LTfreeFM_mutate {fm fm' : FM} (h : LTfreeFM fm)
    (hm : cursorFmMutate fm = some fm') : LTfreeFM fm' := by
  unfold cursorFmMutate at hm
  cases hns : cursorNameStep (deleteFM fm ("allowed-tools".data)) with
  | none =>
    rw [hns] at hm
    cases hm
  | some fm2 =>
    rw [hns] at hm
    have h' : some (cursorHintStep fm2) = some fm' := hm
    injection h' with h'
    rw [← h']
    exact LTfreeFM_hintStep (LTfreeFM_nameStep (LTfreeFM_deleteFM _ h) hns)

theorem scalarLT_of_LTfree {fm : FM} (h : LTfreeFM fm) :
    ∀ e ∈ fm, ScalarLT e.2 := by
  intro e he
  have h2 := h e he
  cases hv : e.2 with
  | str s =>
    rw [hv] at h2
    exact h2
  | list xs => trivial

/-- C7 (counterexample): the idempotence claim is false of the program.  On
`---\nargument-hint:\n  - a\rb\n---\nbody` the first application merges the
carriage-return-bearing list item into the scalar line
`description: Arguments: a\rb`; on the second application the key/value
regex `^(\w[\w-]*):(.*)$` cannot match that line (its dot excludes line
terminators), the line is skipped and the field silently dropped, so the
second output `---\n\n---\nbody` differs from the first. -/
theorem c7_counterexample :
    (cursorTransformFrontmatter
        ("---\nargument-hint:\n  - a\rb\n---\nbody".data)).bind
        cursorTransformFrontmatter ≠
      cursorTransformFrontmatter
        ("---\nargument-hint:\n  - a\rb\n---\nbody".data) := by
  decide

/-- C7 (amended): on every document whose only line terminator is the
newline — no carriage return, U+2028 or U+2029 anywhere in the text — the
Cursor frontmatter transform is idempotent: `allowed-tools` stays dropped,
the `name` separator rewrite is stable, and the `argument-hint` merge is
not reapplied because the hint field was removed; a first application that
throws gives nothing for the second to act on. -/
theorem c7_amended (content : Str)
    (hlt : ∀ c ∈ content, isLineTerm c = false ∨ c = '\n') :
    (cursorTransformFrontmatter content).bind cursorTransformFrontmatter =
      cursorTransformFrontmatter content := by
  cases hps : parseSplit content with
  | none =>
    have h0 : cursorTransformFrontmatter content = some content := by
      unfold cursorTransformFrontmatter
      rw [hps]
    rw [h0]
    show cursorTransformFrontmatter content = some content
    exact h0
  | some rb =>
    obtain ⟨raw, body⟩ := rb
    have hraw : ∀ x ∈ raw, isLineTerm x = false ∨ x = '\n' := by
      have hpre : fmOpen.isPrefixOf content = true := by
        by_cases hp : fmOpen.isPrefixOf content = true
        · exact hp
        · unfold parseSplit at hps
          rw [if_neg hp] at hps
          cases hps
      have hsf : splitFirst fmClose (content.drop fmOpen.length) =
          some (raw, body) := by
        unfold parseSplit at hps
        rw [if_pos hpre] at hps
        exact hps
      obtain ⟨u, hu⟩ := (isPrefixOf_iff_append _ _).1 hpre
      have hdrop : content.drop fmOpen.length = u := by
        rw [hu]
        exact List.drop_left fmOpen u
      rw [hdrop] at hsf
      have hsound := splitFirst_sound hsf
      intro x hx
      apply hlt
      rw [hu, hsound]
      simp [hx]
    have hlines : ∀ l ∈ splitOnChar '\n' raw, ∀ x ∈ l, isLineTerm x = false := by
      intro l hl x hx
      rcases hraw x (mem_of_mem_splitOnChar l hl x hx) with h1 | h1
      · exact h1
      · exact absurd (h1 ▸ hx) (splitOnChar_no_sep '\n' raw l hl)
    have hLT0 : LTfreeFM (parseYamlLines (splitOnChar '\n' raw)) :=
      LTfreeFM_parseYamlLines hlines
    have h0 : cursorTransformFrontmatter content =
        (cursorFmMutate (parseYamlLines (splitOnChar '\n' raw))).map
          (fun fm => reconstructMarkdown fm body) := by
      unfold cursorTransformFrontmatter
      rw [hps]
    cases hm : cursorFmMutate (parseYamlLines (splitOnChar '\n' raw)) with
    | none =>
      rw [h0, hm]
      rfl
    | some fm1 =>
      obtain ⟨hWF1, hfix1⟩ := cursorFmMutate_post (WFfm_parseYamlLines raw) hm
      have hLT1 : LTfreeFM fm1 := LTfreeFM_mutate hLT0 hm
      rw [h0, hm]
      show cursorTransformFrontmatter (reconstructMarkdown fm1 body) =
        some (reconstructMarkdown fm1 body)
      unfold cursorTransformFrontmatter
      rw [parseSplit_reconstruct body hWF1]
      show (cursorFmMutate (parseYamlLines
          (splitOnChar '\n' (serializeFrontmatter fm1)))).map
        (fun fm => reconstructMarkdown fm body) = some (reconstructMarkdown fm1 body)
      rw [parseYaml_serialize hWF1 (scalarLT_of_LTfree hLT1),
        cursorFmMutate_fixed hfix1]
      rfl

/-- Witness for the amended C7 at a concrete newline-only document that
exercises the drop, the name rewrite and the hint merge. -/
theorem c7_amended_witness :
    (cursorTransformFrontmatter
        ("---\nallowed-tools: Bash\nname: gsd:plan\nargument-hint: <x>\n---\nB".data)).bind
        cursorTransformFrontmatter =
      cursorTransformFrontmatter
        ("---\nallowed-tools: Bash\nname: gsd:plan\nargument-hint: <x>\n---\nB".data) :=
  c7_amended
    ("---\nallowed-tools: Bash\nname: gsd:plan\nargument-hint: <x>\n---\nB".data)
    (by decide)



/-! ### Claims C8, C9, C10 -/

/-- C8: Pipeline order.  `transformContent` is definitionally the canonical
path-prefix substitution, then the frontmatter transform, then the
file-reference transform, then the command-reference transform; and on a
document whose body embeds the canonical source prefix inside a
file-inclusion line, the emitted instructional block lists the path with
the prefix already rewritten to the destination prefix. -/
theorem c8_pipeline_order :
    (∀ content pathPfx : Str, cursorTransformContent content pathPfx =
      (cursorTransformFrontmatter (replaceAll claudePathPat pathPfx content)).map
        (fun r => transformCommandReferences cursorSeparator
          (cursorTransformFileReferences r))) ∧
    cursorTransformContent ("@~/.claude/get-shit-done/x.md".data) ("~/.cursor/".data) =
      some ("**Read these files before proceeding:**\n- ~/.cursor/get-shit-done/x.md".data) :=
  ⟨fun _ _ => rfl, by decide⟩

/-- C9: Unknown platform rejection.  For every invocation whose `--ai`
argument parses to a platform identifier outside the supported set, the
process trace contains no filesystem or transformation effect at all and
ends with exit code 1 (the fatal configuration error). -/
theorem c9_unknown_platform_rejection
    (args : List Str) (envConfigDir : Option Str) (cwd home src : Str)
    (gsdEntries skillEntries : List FSTree) (additional : List (Str × Str))
    (answer : Str) (p : Str)
    (hp : parseAiArg args = some p)
    (hunk : isKnownPlatform p = false) :
    (∀ e ∈ mainTrace args envConfigDir cwd home src gsdEntries skillEntries
        additional answer, effTouchesWork e = false) ∧
    (mainTrace args envConfigDir cwd home src gsdEntries skillEntries
        additional answer).getLast? = some (Eff.exitCode 1) := by
  unfold mainTrace
  rw [hp]
  cases hcd : parseConfigDirArg args with
  | none =>
    show (∀ e ∈ [Eff.errLine ("--config-dir requires a path argument".data),
        Eff.exitCode 1], effTouchesWork e = false) ∧
      ([Eff.errLine ("--config-dir requires a path argument".data),
        Eff.exitCode 1] : List Eff).getLast? = some (Eff.exitCode 1)
    refine ⟨?_, rfl⟩
    intro e he
    rcases List.mem_cons.1 he with h1 | h1
    · rw [h1]; rfl
    · rcases List.mem_cons.1 h1 with h2 | h2
      · rw [h2]; rfl
      · cases h2
  | some ecd =>
    have hneg : (!isKnownPlatform p) = true := by rw [hunk]; rfl
    show (∀ e ∈ Eff.banner ::
        (if (!isKnownPlatform p) = true then
          [Eff.errLine (("Unknown platform: ".data) ++ p),
           Eff.errLine ("Available: claude, cursor".data), Eff.exitCode 1]
         else _),
        effTouchesWork e = false) ∧
      (Eff.banner ::
        (if (!isKnownPlatform p) = true then
          [Eff.errLine (("Unknown platform: ".data) ++ p),
           Eff.errLine ("Available: claude, cursor".data), Eff.exitCode 1]
         else _) : List Eff).getLast? = some (Eff.exitCode 1)
    rw [if_pos hneg]
    refine ⟨?_, rfl⟩
    intro e he
    rcases List.mem_cons.1 he with h1 | h1
    · rw [h1]; rfl
    · rcases List.mem_cons.1 h1 with h2 | h2
      · rw [h2]; rfl
      · rcases List.mem_cons.1 h2 with h3 | h3
        · rw [h3]; rfl
        · rcases List.mem_cons.1 h3 with h4 | h4
          · rw [h4]; rfl
          · cases h4

/-- Witness for C9 at the concrete invocation `--ai foo`. -/
theorem c9_unknown_platform_rejection_witness :
    (∀ e ∈ mainTrace ["--ai".data, "foo".data] none ("/w".data) ("/h".data)
        ("/s".data) [] [] [] [], effTouchesWork e = false) ∧
    (mainTrace ["--ai".data, "foo".data] none ("/w".data) ("/h".data)
        ("/s".data) [] [] [] []).getLast? = some (Eff.exitCode 1) :=
  c9_unknown_platform_rejection ["--ai".data, "foo".data] none ("/w".data)
    ("/h".data) ("/s".data) [] [] [] [] ("foo".data) (by decide) (by decide)

/-- C10: Frame property of the frontmatter transform.  When the input
parses as a header plus body, any successful output of the Cursor
frontmatter transform is again a framed document whose body after the
closing marker is byte-for-byte the input's body; when no header parses,
the output is the input unchanged. -/
theorem c10_body_frame (content out : Str)
    (hout : cursorTransformFrontmatter content = some out) :
    (∀ raw body, parseSplit content = some (raw, body) →
      ∃ header, out = fmOpen ++ header ++ fmClose ++ body ∧
        parseSplit out = some (header, body)) ∧
    (parseSplit content = none → out = content) := by
  cases hps : parseSplit content with
  | none =>
    have h0 : cursorTransformFrontmatter content = some content := by
      unfold cursorTransformFrontmatter
      rw [hps]
    rw [h0] at hout
    injection hout with hout
    constructor
    · intro raw body h
      cases h
    · intro _
      exact hout.symm
  | some rb =>
    obtain ⟨raw, body⟩ := rb
    have h0 : cursorTransformFrontmatter content =
        (cursorFmMutate (parseYamlLines (splitOnChar '\n' raw))).map
          (fun fm => reconstructMarkdown fm body) := by
      unfold cursorTransformFrontmatter
      rw [hps]
    rw [h0] at hout
    cases hm : cursorFmMutate (parseYamlLines (splitOnChar '\n' raw)) with
    | none =>
      rw [hm] at hout
      cases hout
    | some fm1 =>
      rw [hm] at hout
      have hout' : some (reconstructMarkdown fm1 body) = some out := hout
      injection hout' with hout'
      obtain ⟨hWF1, -⟩ := cursorFmMutate_post (WFfm_parseYamlLines raw) hm
      constructor
      · intro raw' body' h
        injection h with h
        injection h with h1 h2
        refine ⟨serializeFrontmatter fm1, ?_, ?_⟩
        · rw [← hout', ← h2]
          rfl
        · rw [← hout', ← h2]
          exact parseSplit_reconstruct body hWF1
      · intro h
        cases h

/-- Witness for C10 at a concrete framed document the transform leaves
intact. -/
theorem c10_body_frame_witness :
    (∀ raw body, parseSplit ("---\ntitle: hi\n---\nB".data) = some (raw, body) →
      ∃ header, ("---\ntitle: hi\n---\nB".data : Str) =
          fmOpen ++ header ++ fmClose ++ body ∧
        parseSplit ("---\ntitle: hi\n---\nB".data) = some (header, body)) ∧
    (parseSplit ("---\ntitle: hi\n---\nB".data) = none →
      ("---\ntitle: hi\n---\nB".data : Str) = ("---\ntitle: hi\n---\nB".data : Str)) :=
  c10_body_frame ("---\ntitle: hi\n---\nB".data) ("---\ntitle: hi\n---\nB".data)
    (by decide)


end GSD
